import Mathlib

/-!
Verification of the `naja` crawler core (the `astel` repository) against its
natural-language specification.

Conventions of the shallow embedding:
* Python floats (delays, rates, timestamps) are modelled as rationals (`ℚ`);
  the verified claims are about comparisons, `max`/`min` and sign checks, none
  of which depend on floating-point rounding.
* Python strings used only as opaque keys (domains, user-agent names, raw URLs
  handed to external libraries) are modelled as Lean `String`.
* Python strings that the code inspects character by character (the URL parser)
  are modelled as lists of Unicode code points (`List Nat`), matching Python's
  view of `str` as a sequence of code points.
* Python exceptions are modelled with `Except PyExc`; a raised exception is an
  `Except.error` carrying the exception class.
* Python dicts are modelled as association lists (`List (key × value)`) looked
  up with `List.lookup`; insertion overwrites an existing binding.
-/

namespace Naja

/-- Python exception classes that the embedded code can raise.

`attributeError` matters because `naja/limiters.py` raises
`errors.InvalidConfigurationError`, a class that `naja/errors.py` never
defines: evaluating that attribute raises `AttributeError` at the raise site.
-/
inductive PyExc where
  | keyError
  | attributeError
  | valueError
  | zeroDivisionError
  | unboundLocalError
  | invalidUrlError
  deriving DecidableEq, Repr

/-- `urllib.robotparser.RequestRate`: a named tuple `(requests, seconds)` of
integers. -/
structure RequestRate where
  requests : ℤ
  seconds : ℤ
  deriving DecidableEq, Repr

/-- `naja.limiters.RateLimiterConfig`: the `TypedDict` passed to
`RateLimiter.configure`.  `crawl_delay` is a numeric string in the source
(`float`/`int` is applied to it); it is modelled directly as the rational it
denotes. -/
structure RateLimiterConfig where
  domain : Option String
  crawl_delay : Option ℚ
  request_rate : Option RequestRate

/-- Python `int(...)` on a rational value: truncation toward zero. -/
def pyInt (q : ℚ) : ℤ :=
  if 0 ≤ q then ⌊q⌋ else ⌈q⌉

/-- State of `naja.limiters.StaticRateLimiter`: the stored delay
`self.time` (seconds). -/
structure StaticRateLimiter where
  time : ℚ
  deriving DecidableEq, Repr

/-- `StaticRateLimiter.configure` (naja/limiters.py, lines 87-105).

Control flow of the source, line by line:
* if `crawl_delay` is not `None`, `new_request_delay = float(crawl_delay)`;
* elif `request_rate` is not `None`,
  `new_request_delay = request_rate.seconds / request_rate.requests`
  (a `ZeroDivisionError` when `requests == 0`);
* otherwise neither branch assigns `new_request_delay`, and the following
  `if new_request_delay < 0` raises `UnboundLocalError`;
* when `new_request_delay < 0` the source executes
  `raise errors.InvalidConfigurationError(msg)`; that attribute does not
  exist in `naja.errors`, so an `AttributeError` is raised instead;
* finally the stored delay is raised to the new value only when the new value
  is strictly greater (`if new_request_delay > self.time`).
-/
def StaticRateLimiter.configure (s : StaticRateLimiter) (cfg : RateLimiterConfig) :
    Except PyExc StaticRateLimiter := do
  let new_request_delay : ℚ ←
    match cfg.crawl_delay with
    | some d => pure d
    | none =>
      match cfg.request_rate with
      | some r =>
        if r.requests = 0 then throw .zeroDivisionError
        else pure ((r.seconds : ℚ) / (r.requests : ℚ))
      | none => throw .unboundLocalError
  if new_request_delay < 0 then
    throw .attributeError
  else if new_request_delay > s.time then
    return ⟨new_request_delay⟩
  else
    return s

/-- State of `naja.limiters.TokenBucketRateLimiter`: the slots
`_tokens_per_second`, `_tokens`, `_last_refresh_time`. -/
structure TokenBucketRateLimiter where
  tokens_per_second : ℚ
  tokens : ℚ
  last_refresh_time : ℚ
  deriving DecidableEq, Repr

/-- `TokenBucketRateLimiter.configure` (naja/limiters.py, lines 188-209).

* with a `crawl_delay`, `new_token_rate = 1 / int(crawl_delay)`
  (a `ZeroDivisionError` when the truncated delay is `0`);
* with a `request_rate`, `new_token_rate = requests / seconds`
  (a `ZeroDivisionError` when `seconds == 0`);
* with neither, `return` (a genuine no-op, unlike the static limiter);
* `if new_token_rate < 0` raises `errors.InvalidConfigurationError`, which
  does not exist, hence `AttributeError`;
* the stored rate is lowered to the new rate only when the new rate is
  strictly smaller.
-/
def TokenBucketRateLimiter.configure (s : TokenBucketRateLimiter)
    (cfg : RateLimiterConfig) : Except PyExc TokenBucketRateLimiter := do
  let new_token_rate : ℚ ←
    match cfg.crawl_delay with
    | some d =>
      if pyInt d = 0 then throw .zeroDivisionError
      else pure (1 / (pyInt d : ℚ))
    | none =>
      match cfg.request_rate with
      | some r =>
        if r.seconds = 0 then throw .zeroDivisionError
        else pure ((r.requests : ℚ) / (r.seconds : ℚ))
      | none => return s
  if new_token_rate < 0 then
    throw .attributeError
  else if new_token_rate < s.tokens_per_second then
    return { s with tokens_per_second := new_token_rate }
  else
    return s

/-- A rate-limiter instance as stored by `PerDomainRateLimiter`: one of the
three concrete strategies of naja/limiters.py. -/
inductive Limiter where
  | static (s : StaticRateLimiter)
  | noLimit
  | tokenBucket (s : TokenBucketRateLimiter)
  deriving DecidableEq, Repr

/-- Dynamic dispatch of `configure` over the concrete limiter classes.
`NoLimitRateLimiter.configure` does nothing (naja/limiters.py, line 120). -/
def Limiter.configure : Limiter → RateLimiterConfig → Except PyExc Limiter
  | .static s, cfg => (StaticRateLimiter.configure s cfg).map .static
  | .noLimit, _ => .ok .noLimit
  | .tokenBucket s, cfg => (TokenBucketRateLimiter.configure s cfg).map .tokenBucket

/-- Insertion into a Python dict modelled as an association list: overwrite an
existing binding for the key, otherwise append. -/
def dictInsert {β : Type} (k : String) (v : β) :
    List (String × β) → List (String × β)
  | [] => [(k, v)]
  | (k', v') :: rest =>
    if k' = k then (k, v) :: rest else (k', v') :: dictInsert k v rest

/-- Lookup in a Python dict modelled as an association list (`d[k]` /
`k in d`). -/
def dictGet {β : Type} (k : String) : List (String × β) → Option β
  | [] => none
  | (k', v) :: rest => if k' = k then some v else dictGet k rest

/-- State of `naja.limiters.PerDomainRateLimiter`.

`default_factory` is the stored zero-argument factory; in the pure model a
factory is identified with the limiter value it builds (the source's
`DEFAULT_LIMITER_FACTORY` builds `StaticRateLimiter(time_in_seconds=1)`).
-/
structure PerDomainRateLimiter where
  default_factory : Limiter
  domain_to_limiter : List (String × Limiter)

/-- The source's `DEFAULT_LIMITER_FACTORY`
(`partial(StaticRateLimiter, time_in_seconds=1)`). -/
def defaultLimiterFactory : Limiter := .static ⟨1⟩

/-- `PerDomainRateLimiter.add_domain` (naja/limiters.py, lines 237-252),
parametrised by the behaviour of the external `tldextract.extract(url).domain`
call (`extract_domain`).  Raises `InvalidUrlError` when the extracted domain
is empty, otherwise stores a fresh default limiter under the *extracted*
domain. -/
def PerDomainRateLimiter.add_domain (extract_domain : String → String)
    (s : PerDomainRateLimiter) (url : String) :
    Except PyExc PerDomainRateLimiter := do
  let domain := extract_domain url
  if domain = "" then throw .invalidUrlError
  return { s with domain_to_limiter := dictInsert domain s.default_factory s.domain_to_limiter }

/-- `PerDomainRateLimiter.configure` (naja/limiters.py, lines 263-284).

The body is a single guarded block: only when `config["domain"]` is not `None`
*and* is not yet a key of `_domain_to_limiter` does it call
`add_domain(domain)` and then
`self._domain_to_limiter[config["domain"]].configure(config)`.
`add_domain` stores the new limiter under `tldextract`'s extracted domain, so
the subsequent lookup of the raw `config["domain"]` raises `KeyError` whenever
the two differ.  When the lookup succeeds, `configure` mutates the stored
limiter in place, modelled by rebinding the key to the configured limiter.
-/
def PerDomainRateLimiter.configure (extract_domain : String → String)
    (s : PerDomainRateLimiter) (cfg : RateLimiterConfig) :
    Except PyExc PerDomainRateLimiter := do
  match cfg.domain with
  | none => return s
  | some d =>
    if (dictGet d s.domain_to_limiter).isSome then
      return s
    else do
      let s' ← PerDomainRateLimiter.add_domain extract_domain s d
      match dictGet d s'.domain_to_limiter with
      | none => throw .keyError
      | some lim => do
        let lim' ← lim.configure cfg
        return { s' with domain_to_limiter := dictInsert d lim' s'.domain_to_limiter }

/-- A recorded robots policy, modelling `urllib.robotparser.RobotFileParser`
as stored by `UserAgent.respect`:  all the crawler ever asks of it through
`can_access` is its `can_fetch(useragent, url)` verdict. -/
structure RobotsPolicy where
  can_fetch : String → String → Bool

/-- State of `naja.agent.UserAgent`: the agent name and the
`_acknowledged_domains` dict. -/
structure UserAgent where
  name : String
  acknowledged_domains : List (String × RobotsPolicy)

/-- `UserAgent.can_access` (naja/agent.py, lines 42-54): the body is
`return self._acknowledged_domains[domain].can_fetch(self.name, url)`, an
unguarded dict subscript, so an unknown domain raises `KeyError`. -/
def UserAgent.can_access (a : UserAgent) (domain url : String) :
    Except PyExc Bool :=
  match dictGet domain a.acknowledged_domains with
  | none => .error .keyError
  | some policy => .ok (policy.can_fetch a.name url)

/-! Helper lemmas about the limiter embeddings. -/

theorem dictGet_dictInsert {β : Type} (k k' : String) (v : β)
    (m : List (String × β)) :
    dictGet k' (dictInsert k v m) = if k = k' then some v else dictGet k' m := by
  induction m with
  | nil => simp [dictInsert, dictGet]
  | cons hd tl ih =>
    obtain ⟨k₀, v₀⟩ := hd
    by_cases h0 : k₀ = k
    · subst h0
      by_cases h1 : k₀ = k' <;> simp [dictInsert, dictGet, h1]
    · by_cases h1 : k₀ = k'
      · subst h1
        simp only [dictInsert, dictGet, h0, if_false, ite_false, if_true, ite_true,
          eq_self_iff_true]
        rw [if_neg (fun h => h0 h.symm)]
      · simp [dictInsert, dictGet, h0, h1, ih]

theorem staticConfigure_crawl_delay (t d : ℚ) (dom : Option String)
    (rr : Option RequestRate) (hd : 0 ≤ d) :
    StaticRateLimiter.configure ⟨t⟩ ⟨dom, some d, rr⟩ = .ok ⟨max t d⟩ := by
  simp only [StaticRateLimiter.configure, bind, Except.bind, pure, Except.pure]
  rw [if_neg (not_lt.mpr hd)]
  rcases le_or_lt d t with h | h
  · rw [if_neg (not_lt.mpr h)]
    simp [max_eq_left h]
  · rw [if_pos h]
    simp [max_eq_right h.le]

theorem tokenConfigure_request_rate (s : TokenBucketRateLimiter)
    (dom : Option String) (r : RequestRate) (hs : ¬ r.seconds = 0)
    (hr : 0 ≤ (r.requests : ℚ) / (r.seconds : ℚ)) :
    TokenBucketRateLimiter.configure s ⟨dom, none, some r⟩ =
      .ok ⟨min s.tokens_per_second ((r.requests : ℚ) / (r.seconds : ℚ)),
           s.tokens, s.last_refresh_time⟩ := by
  simp only [TokenBucketRateLimiter.configure, bind, Except.bind, pure, Except.pure]
  rw [if_neg hs, if_neg (not_lt.mpr hr)]
  rcases lt_or_le ((r.requests : ℚ) / (r.seconds : ℚ)) s.tokens_per_second with h | h
  · rw [if_pos h]
    simp [min_eq_right h.le]
  · rw [if_neg (not_lt.mpr h)]
    simp [min_eq_left h]

theorem perdomainConfigure_fresh (ed : String → String)
    (s : PerDomainRateLimiter) (cfg : RateLimiterConfig) (d : String)
    (hdom : cfg.domain = some d) (hnone : dictGet d s.domain_to_limiter = none)
    (hed : ed d = d) (hne : ¬ d = "") :
    PerDomainRateLimiter.configure ed s cfg =
      (s.default_factory.configure cfg).map (fun lim' =>
        ⟨s.default_factory,
         dictInsert d lim'
           (dictInsert d s.default_factory s.domain_to_limiter)⟩) := by
  simp only [PerDomainRateLimiter.configure, hdom, hnone, Option.isSome_none,
    Bool.false_eq_true, if_false, ite_false]
  simp only [PerDomainRateLimiter.add_domain, hed, hne, if_false, ite_false,
    bind, Except.bind, pure, Except.pure, throw]
  simp only [dictGet_dictInsert, if_pos rfl]
  rcases hc : s.default_factory.configure cfg with e | lim'
  · simp [Except.map, hc]
  · simp [Except.map, hc]

/-- Claim C2, counterexample: `UserAgent.can_access` on a fresh agent (no
policy recorded for `"example.com"`) raises `KeyError` instead of returning
`True`, refuting the permissive default. -/
theorem can_access_unknown_domain_not_true :
    UserAgent.can_access ⟨"naja", []⟩ "example.com" "https://example.com/" =
      .error .keyError
    ∧ UserAgent.can_access ⟨"naja", []⟩ "example.com" "https://example.com/" ≠
      .ok true :=
  ⟨rfl, fun h => nomatch h⟩

/-- Claim C2 (corrected): `can_access` returns the recorded policy's
`can_fetch` verdict for the configured user-agent name when a policy is
recorded for the domain, and raises `KeyError` (rather than defaulting to
permissive `True`) when no policy is recorded. -/
theorem can_access_spec (a : UserAgent) (domain url : String) :
    (dictGet domain a.acknowledged_domains = none →
      a.can_access domain url = .error .keyError)
    ∧ (∀ p, dictGet domain a.acknowledged_domains = some p →
      a.can_access domain url = .ok (p.can_fetch a.name url)) := by
  constructor
  · intro h
    simp [UserAgent.can_access, h]
  · intro p h
    simp [UserAgent.can_access, h]

/-- Witness for `can_access_spec` at a concrete agent holding one
always-allow policy. -/
theorem can_access_spec_witness :
    UserAgent.can_access ⟨"naja", [("example.com", ⟨fun _ _ => true⟩)]⟩
      "example.com" "https://example.com/page" = .ok true :=
  (can_access_spec ⟨"naja", [("example.com", ⟨fun _ _ => true⟩)]⟩
    "example.com" "https://example.com/page").2 ⟨fun _ _ => true⟩ rfl

/-- Claim C3 (code bug): configuration values yielding a *non-positive*
delay or token rate are not rejected with a `ConfigurationError`.
* a crawl delay of `0` (non-positive) is accepted silently by
  `StaticRateLimiter.configure` (the guard is `< 0`, not `<= 0`);
* a request rate of `0/5` is accepted silently by
  `TokenBucketRateLimiter.configure`, which then *stores* the rate `0`;
* a negative crawl delay does make the guard fire, but the raise site
  references `errors.InvalidConfigurationError`, which `naja/errors.py`
  never defines, so an `AttributeError` is raised instead of any
  configuration error. -/
theorem configure_accepts_nonpositive :
    StaticRateLimiter.configure ⟨1⟩ ⟨none, some 0, none⟩ = .ok ⟨1⟩
    ∧ TokenBucketRateLimiter.configure ⟨1, 0, 0⟩ ⟨none, none, some ⟨0, 5⟩⟩ =
        .ok ⟨0, 0, 0⟩
    ∧ StaticRateLimiter.configure ⟨1⟩ ⟨none, some (-1), none⟩ =
        .error .attributeError := by
  refine ⟨rfl, ?_, rfl⟩
  have h5 : ((5 : ℤ) : ℚ) ≠ 0 := by norm_num
  have := tokenConfigure_request_rate ⟨1, 0, 0⟩ none ⟨0, 5⟩ (by norm_num) (by norm_num)
  simpa using this

/-- Claim C4, counterexample: on a `StaticRateLimiter` constructed with delay
`10`, two successive `configure` calls with delays `1` then `2` leave the
effective delay at `10`, not `max 1 2`: the claim omits the limiter's initial
delay from the merge. -/
theorem static_configure_twice_counterexample :
    (StaticRateLimiter.configure ⟨10⟩ ⟨none, some 1, none⟩).bind
      (fun s1 => StaticRateLimiter.configure s1 ⟨none, some 2, none⟩) = .ok ⟨10⟩
    ∧ (10 : ℚ) ≠ max 1 2 := by
  refine ⟨rfl, by norm_num⟩

/-- Claim C4 (corrected): with the limiter's initial value included, the
conservative-merge law holds: after two successive `configure` calls the
static limiter's delay is `max t0 (max d1 d2)` (largest wins, including the
constructor-supplied delay `t0`), and the token bucket's rate is
`min r0 (min r1 r2)` (smallest wins, including the constructor-supplied rate
`r0`). -/
theorem configure_twice_conservative (t0 d1 d2 : ℚ) (h1 : 0 ≤ d1) (h2 : 0 ≤ d2)
    (s : TokenBucketRateLimiter) (r1 r2 : RequestRate)
    (hs1 : ¬ r1.seconds = 0) (hs2 : ¬ r2.seconds = 0)
    (hr1 : 0 ≤ (r1.requests : ℚ) / (r1.seconds : ℚ))
    (hr2 : 0 ≤ (r2.requests : ℚ) / (r2.seconds : ℚ)) :
    (StaticRateLimiter.configure ⟨t0⟩ ⟨none, some d1, none⟩).bind
      (fun s1 => StaticRateLimiter.configure s1 ⟨none, some d2, none⟩) =
      .ok ⟨max t0 (max d1 d2)⟩
    ∧ (TokenBucketRateLimiter.configure s ⟨none, none, some r1⟩).bind
      (fun s1 => TokenBucketRateLimiter.configure s1 ⟨none, none, some r2⟩) =
      .ok ⟨min s.tokens_per_second
            (min ((r1.requests : ℚ) / (r1.seconds : ℚ))
              ((r2.requests : ℚ) / (r2.seconds : ℚ))),
           s.tokens, s.last_refresh_time⟩ := by
  constructor
  · rw [staticConfigure_crawl_delay t0 d1 none none h1]
    simp only [Except.bind]
    rw [staticConfigure_crawl_delay (max t0 d1) d2 none none h2, max_assoc]
  · rw [tokenConfigure_request_rate s none r1 hs1 hr1]
    simp only [Except.bind]
    rw [tokenConfigure_request_rate ⟨_, _, _⟩ none r2 hs2 hr2]
    simp [min_assoc]

/-- Witness for `configure_twice_conservative` at delays `2, 3` on a static
limiter with initial delay `1` and rates `1/2, 1/4` on a token bucket with
initial rate `1`. -/
theorem configure_twice_conservative_witness :
    (StaticRateLimiter.configure ⟨1⟩ ⟨none, some 2, none⟩).bind
      (fun s1 => StaticRateLimiter.configure s1 ⟨none, some 3, none⟩) =
      .ok ⟨max 1 (max 2 3)⟩
    ∧ (TokenBucketRateLimiter.configure ⟨1, 0, 0⟩ ⟨none, none, some ⟨1, 2⟩⟩).bind
      (fun s1 => TokenBucketRateLimiter.configure s1 ⟨none, none, some ⟨1, 4⟩⟩) =
      .ok ⟨min (1 : ℚ)
            (min (((1 : ℤ) : ℚ) / ((2 : ℤ) : ℚ)) (((1 : ℤ) : ℚ) / ((4 : ℤ) : ℚ))),
           0, 0⟩ :=
  configure_twice_conservative 1 2 3 (by norm_num) (by norm_num) ⟨1, 0, 0⟩
    ⟨1, 2⟩ ⟨1, 4⟩ (by norm_num) (by norm_num) (by norm_num) (by norm_num)

/-- Claim C5, counterexample: when a limiter for the domain `"a"` already
exists, `PerDomainRateLimiter.configure` is a no-op — the supplied
configuration (crawl delay `5`) is *not* forwarded to the existing limiter,
although forwarding it would have raised that limiter's delay from `1` to
`5`. -/
theorem perdomain_configure_existing_noop :
    PerDomainRateLimiter.configure (fun x => x)
      ⟨defaultLimiterFactory, [("a", .static ⟨1⟩)]⟩ ⟨some "a", some 5, none⟩ =
      .ok ⟨defaultLimiterFactory, [("a", .static ⟨1⟩)]⟩
    ∧ StaticRateLimiter.configure ⟨1⟩ ⟨some "a", some 5, none⟩ = .ok ⟨5⟩ :=
  ⟨rfl, rfl⟩

/-- Claim C5 (corrected): `PerDomainRateLimiter.configure` creates the
domain's limiter via the default factory and forwards the supplied
configuration to it *only when* the domain is not `None` and is absent from
`_domain_to_limiter`; when a limiter already exists for the domain the call
is a no-op (nothing is forwarded).  Moreover `add_domain` stores the fresh
limiter under `tldextract`'s extracted domain, so the forwarding lookup
succeeds exactly when that extraction returns the supplied domain string
unchanged — otherwise `configure` raises `KeyError`. -/
theorem perdomain_configure_spec (ed : String → String)
    (s : PerDomainRateLimiter) (cfg : RateLimiterConfig) (d : String)
    (hdom : cfg.domain = some d) :
    ((dictGet d s.domain_to_limiter).isSome →
      PerDomainRateLimiter.configure ed s cfg = .ok s)
    ∧ (dictGet d s.domain_to_limiter = none → ed d = d → ¬ d = "" →
      PerDomainRateLimiter.configure ed s cfg =
        (s.default_factory.configure cfg).map (fun lim' =>
          ⟨s.default_factory,
           dictInsert d lim'
             (dictInsert d s.default_factory s.domain_to_limiter)⟩))
    ∧ (dictGet d s.domain_to_limiter = none → ¬ ed d = d → ¬ ed d = "" →
      PerDomainRateLimiter.configure ed s cfg = .error .keyError) := by
  refine ⟨?_, ?_, ?_⟩
  · intro h
    simp [PerDomainRateLimiter.configure, hdom, h, pure, Except.pure]
  · intro hnone hed hne
    exact perdomainConfigure_fresh ed s cfg d hdom hnone hed hne
  · intro hnone hed hne
    simp only [PerDomainRateLimiter.configure, hdom, hnone, Option.isSome_none,
      Bool.false_eq_true, if_false, ite_false]
    simp only [PerDomainRateLimiter.add_domain, bind, Except.bind, pure,
      Except.pure, throw]
    rw [if_neg hne]
    simp only [dictGet_dictInsert, hed, hnone, if_false, ite_false]
    rfl

/-- Witness for `perdomain_configure_spec`: configuring a fresh single-label
domain (identity extraction) creates the limiter via the default factory and
forwards the configuration to it. -/
theorem perdomain_configure_spec_witness :
    PerDomainRateLimiter.configure (fun x => x) ⟨.static ⟨1⟩, []⟩
      ⟨some "localhost", some 2, none⟩ =
      (Limiter.configure (.static ⟨1⟩) ⟨some "localhost", some 2, none⟩).map
        (fun lim' =>
          ⟨.static ⟨1⟩,
           dictInsert "localhost" lim'
             (dictInsert "localhost" (.static ⟨1⟩) [])⟩) :=
  (perdomain_configure_spec (fun x => x) ⟨.static ⟨1⟩, []⟩
    ⟨some "localhost", some 2, none⟩ "localhost" rfl).2.1 rfl rfl (by decide)

/-- Claim C10, counterexample: the unbound-variable failure is *not*
reachable through `PerDomainRateLimiter.configure` for an arbitrary newly
seen domain: for `"example.com"` (where `tldextract.extract` returns
`"example"`, modelled by the supplied extraction function) the lookup
following `add_domain` raises `KeyError` before the inner
`StaticRateLimiter.configure` is ever called. -/
theorem perdomain_unbound_not_any_domain :
    PerDomainRateLimiter.configure (fun _ => "example")
      ⟨defaultLimiterFactory, []⟩ ⟨some "example.com", none, none⟩ =
      .error .keyError
    ∧ PyExc.keyError ≠ PyExc.unboundLocalError :=
  ⟨rfl, fun h => nomatch h⟩

/-- Claim C10 (corrected): `StaticRateLimiter.configure` with a config in
which both `crawl_delay` and `request_rate` are `None` fails with
`UnboundLocalError` (the guard reads `new_request_delay` before any branch
assigned it) instead of being a no-op; the input is reachable through
`PerDomainRateLimiter.configure` with a static-limiter factory for any newly
seen domain whose extracted domain equals the supplied domain string (e.g.
single-label hosts). -/
theorem static_configure_unset_config_unbound :
    (∀ (s : StaticRateLimiter) (dom : Option String),
      StaticRateLimiter.configure s ⟨dom, none, none⟩ =
        .error .unboundLocalError)
    ∧ (∀ (ed : String → String) (s : PerDomainRateLimiter) (d : String)
        (t : ℚ), ed d = d → ¬ d = "" → dictGet d s.domain_to_limiter = none →
        s.default_factory = .static ⟨t⟩ →
        PerDomainRateLimiter.configure ed s ⟨some d, none, none⟩ =
          .error .unboundLocalError) := by
  constructor
  · intro s dom
    rfl
  · intro ed s d t hed hne hnone hfac
    rw [perdomainConfigure_fresh ed s ⟨some d, none, none⟩ d rfl hnone hed hne,
      hfac]
    rfl

/-- Witness for `static_configure_unset_config_unbound`: the failure is
reached through `PerDomainRateLimiter.configure` for the fresh single-label
domain `"localhost"`. -/
theorem static_configure_unset_config_unbound_witness :
    PerDomainRateLimiter.configure (fun x => x) ⟨.static ⟨1⟩, []⟩
      ⟨some "localhost", none, none⟩ = .error .unboundLocalError :=
  static_configure_unset_config_unbound.2 (fun x => x) ⟨.static ⟨1⟩, []⟩
    "localhost" 1 rfl (by decide) rfl rfl

/-! URL data model (naja/parsers.py).

Python strings that the parser inspects character by character are modelled
as lists of Unicode code points. -/

/-- Code points of a Lean string literal; used to write concrete Python
strings in examples. -/
def pyStr (s : String) : List Nat :=
  s.toList.map Char.toNat

/-- `naja.parsers.ParsedUrl`: the frozen dataclass holding the six URL
components produced by `urllib.parse.urlparse`.  Equality and hashing of the
dataclass compare exactly these six fields, matching structural equality
here. -/
structure ParsedUrl where
  scheme : List Nat
  domain : List Nat
  path : List Nat
  params : List Nat
  query : List Nat
  fragment : List Nat
  deriving DecidableEq, Repr

/-! Frontier / scheduler state (naja/crawler.py).

The claims C1, C8 and C9 are about the interplay of
`Crawler._acknowledge_domains`, `Crawler._on_found_links` and
`Crawler._put_todo` with the frontier bookkeeping `_urls_seen`,
`_total_pages`, `_limit` and the task queue.  The embedding keeps exactly
that bookkeeping:

* `urls_seen` is the `_urls_seen` set;
* `todo` is the ordered log of URLs for which `_put_todo` enqueued a crawl
  task (`self._todo.put(asyncio.create_task(self._crawl(url)))`);
* `total_pages` / `limit` are `_total_pages` / `_limit` (Python ints,
  modelled as `ℤ`).

`_acknowledge_domains` also calls `agent.respect` and
`rate_limiter.configure` for each new URL; those mutate the agent and
limiter components, never the frontier bookkeeping, and are not modelled
here.  The sitemap ingestion *is* modelled, because it re-enters
`_acknowledge_domains` and mutates `_urls_seen`:

* `sm u` lists, for each sitemap path the agent reports for `u`'s domain,
  the set of URLs `parse_site_map` extracts from it (the composition of
  `agent.get_site_maps` and `Crawler.parse_site_map`);
* when `sm u` is empty — in particular whenever the domain reports no
  sitemaps, since `get_site_maps(...) or []` yields `[]` — the source calls
  `await asyncio.wait([])` on an empty task list, which raises
  `ValueError`; the loop aborts there and `_urls_seen.update(new)` never
  runs (modelled by the `Bool` flag threaded through the fold);
* the recursive `_acknowledge_domains` sub-tasks are spawned with
  `asyncio.create_task` and their results are discarded, so exceptions
  inside them are swallowed while their `_urls_seen` updates persist
  (modelled by keeping only the first component of the recursive call);
* sitemap recursion has no termination guarantee in the source (sitemaps
  may cite each other); the embedding bounds the recursion depth with
  `fuel`, and exhausted fuel acknowledges nothing.
-/

structure CrawlerState where
  urls_seen : Finset ParsedUrl
  todo : List ParsedUrl
  total_pages : ℤ
  limit : ℤ
  deriving DecidableEq

/-- A Python set of URLs handed to `_acknowledge_domains` or produced by a
sitemap parse, modelled as a duplicate-free list: `List.dedup` fixes one
iteration order and removes duplicates, exactly the two facts the embedding
needs about `set`. -/
def UrlSet : Type := List ParsedUrl

/-- `Crawler._acknowledge_domains` (naja/crawler.py, lines 132-159).
Returns the final `_urls_seen` together with the returned set `new`
(`parsed_urls - self._urls_seen` on entry) or the exception that aborted the
loop. -/
def ackDomains (sm : ParsedUrl → List (List ParsedUrl)) :
    ℕ → List ParsedUrl → Finset ParsedUrl →
    Finset ParsedUrl × Except PyExc (List ParsedUrl)
  | 0, _, seen => (seen, .ok [])
  | fuel + 1, batch, seen =>
    let new := batch.dedup.filter (fun u => u ∉ seen)
    let step : Finset ParsedUrl × Bool → ParsedUrl → Finset ParsedUrl × Bool :=
      fun acc u =>
        match acc with
        | (s, false) => (s, false)
        | (s, true) =>
          if sm u = [] then (s, false)
          else ((sm u).foldl (fun s' links => (ackDomains sm fuel links s').1) s,
                true)
    match new.foldl step (seen, true) with
    | (seen', false) => (seen', .error .valueError)
    | (seen', true) => (seen' ∪ new.toFinset, .ok new)

/-- `Crawler._put_todo` (naja/crawler.py, lines 217-221): drop the URL when
`_total_pages > _limit`, otherwise increment the counter and enqueue a crawl
task for it. -/
def putTodo (st : CrawlerState) (u : ParsedUrl) : CrawlerState :=
  if st.total_pages > st.limit then st
  else { st with total_pages := st.total_pages + 1, todo := st.todo ++ [u] }

/-- `Crawler._on_found_links` (naja/crawler.py, lines 211-215): acknowledge
the batch, then `_put_todo` each URL of the returned `new` set.  An
exception raised inside `_acknowledge_domains` propagates before any
enqueueing happens. -/
def onFoundLinks (sm : ParsedUrl → List (List ParsedUrl)) (fuel : ℕ)
    (st : CrawlerState) (batch : List ParsedUrl) :
    CrawlerState × Option PyExc :=
  match ackDomains sm fuel batch st.urls_seen with
  | (seen', .error e) => ({ st with urls_seen := seen' }, some e)
  | (seen', .ok new) =>
    (new.foldl putTodo { st with urls_seen := seen' }, none)

/-- A sequential run of the found-links pipeline over a list of URL batches,
stopping at the first propagated exception (which aborts `run()` in the
source). -/
def runBatches (sm : ParsedUrl → List (List ParsedUrl)) (fuel : ℕ) :
    List (List ParsedUrl) → CrawlerState → CrawlerState × Option PyExc
  | [], st => (st, none)
  | b :: bs, st =>
    match onFoundLinks sm fuel st b with
    | (st', none) => runBatches sm fuel bs st'
    | (st', some e) => (st', some e)

/-- A concrete URL value for witnesses and counterexamples:
`https://example.com/`. -/
def exampleUrl : ParsedUrl :=
  ⟨pyStr "https", pyStr "example.com", pyStr "/", [], [], []⟩

/-! Helper lemmas about the frontier embedding. -/

theorem foldl_subset {α : Type} (g : Finset ParsedUrl → α → Finset ParsedUrl)
    (h : ∀ s a, s ⊆ g s a) :
    ∀ (l : List α) (s : Finset ParsedUrl), s ⊆ l.foldl g s := by
  intro l
  induction l with
  | nil => intro s; exact Finset.Subset.refl s
  | cons a t ih => intro s; exact (h s a).trans (ih (g s a))

theorem foldl_fst_subset {α : Type}
    (g : Finset ParsedUrl × Bool → α → Finset ParsedUrl × Bool)
    (h : ∀ acc a, acc.1 ⊆ (g acc a).1) :
    ∀ (l : List α) (acc : Finset ParsedUrl × Bool), acc.1 ⊆ (l.foldl g acc).1 := by
  intro l
  induction l with
  | nil => intro acc; exact Finset.Subset.refl acc.1
  | cons a t ih => intro acc; exact (h acc a).trans (ih (g acc a))

theorem ackDomains_seen_subset (sm : ParsedUrl → List (List ParsedUrl)) :
    ∀ (fuel : ℕ) (batch : List ParsedUrl) (seen : Finset ParsedUrl),
      seen ⊆ (ackDomains sm fuel batch seen).1 := by
  intro fuel
  induction fuel with
  | zero => intro batch seen; exact Finset.Subset.refl seen
  | succ fuel ih =>
    intro batch seen
    simp only [ackDomains]
    have hstep : ∀ (acc : Finset ParsedUrl × Bool) (u : ParsedUrl),
        acc.1 ⊆ ((fun (acc : Finset ParsedUrl × Bool) (u : ParsedUrl) =>
          match acc with
          | (s, false) => (s, false)
          | (s, true) =>
            if sm u = [] then (s, false)
            else ((sm u).foldl
                (fun s' links => (ackDomains sm fuel links s').1) s, true))
          acc u).1 := by
      rintro ⟨s, fl⟩ u
      cases fl
      · exact Finset.Subset.refl s
      · by_cases hu : sm u = []
        · simp only [hu, if_pos rfl, ite_true]
          exact Finset.Subset.refl s
        · simp only [hu, if_false, ite_false]
          exact foldl_subset _ (fun s' links => ih links s') (sm u) s
    split
    · rename_i s' heq
      have := foldl_fst_subset _ hstep
        (List.filter (fun u => decide (u ∉ seen)) batch.dedup) (seen, true)
      rw [heq] at this
      exact this
    · rename_i s' heq
      have := foldl_fst_subset _ hstep
        (List.filter (fun u => decide (u ∉ seen)) batch.dedup) (seen, true)
      rw [heq] at this
      exact this.trans Finset.subset_union_left

theorem ackDomains_ok (sm : ParsedUrl → List (List ParsedUrl)) (fuel : ℕ)
    (batch : List ParsedUrl) (seen : Finset ParsedUrl) (new : List ParsedUrl)
    (h : (ackDomains sm fuel batch seen).2 = .ok new) :
    new.Nodup ∧ (∀ u ∈ new, u ∉ seen) ∧
      ∀ u ∈ new, u ∈ (ackDomains sm fuel batch seen).1 := by
  cases fuel with
  | zero =>
    simp only [ackDomains] at h
    cases h
    simp
  | succ fuel =>
    simp only [ackDomains] at h ⊢
    revert h
    split
    · intro h
      cases h
    · rename_i s' heq
      intro h
      cases h
      refine ⟨(List.nodup_dedup batch).filter _, ?_, ?_⟩
      · intro u hu
        have := List.of_mem_filter hu
        simpa using this
      · intro u hu
        exact Finset.mem_union_right _ (List.mem_toFinset.mpr hu)

theorem putTodo_urls_seen (st : CrawlerState) (u : ParsedUrl) :
    (putTodo st u).urls_seen = st.urls_seen := by
  unfold putTodo
  split <;> rfl

theorem putTodo_limit (st : CrawlerState) (u : ParsedUrl) :
    (putTodo st u).limit = st.limit := by
  unfold putTodo
  split <;> rfl

theorem foldl_putTodo_urls_seen (l : List ParsedUrl) :
    ∀ st : CrawlerState, (l.foldl putTodo st).urls_seen = st.urls_seen := by
  induction l with
  | nil => intro st; rfl
  | cons u t ih =>
    intro st
    rw [List.foldl_cons, ih (putTodo st u), putTodo_urls_seen]

theorem foldl_putTodo_limit (l : List ParsedUrl) :
    ∀ st : CrawlerState, (l.foldl putTodo st).limit = st.limit := by
  induction l with
  | nil => intro st; rfl
  | cons u t ih =>
    intro st
    rw [List.foldl_cons, ih (putTodo st u), putTodo_limit]

theorem foldl_putTodo_todo (l : List ParsedUrl) :
    ∀ st : CrawlerState, ∃ l', (l.foldl putTodo st).todo = st.todo ++ l' ∧
      List.Sublist l' l := by
  induction l with
  | nil => intro st; exact ⟨[], by simp, List.Sublist.refl []⟩
  | cons u t ih =>
    intro st
    by_cases h : st.total_pages > st.limit
    · obtain ⟨l', h1, h2⟩ := ih st
      refine ⟨l', ?_, h2.cons u⟩
      rw [List.foldl_cons]
      have hu : putTodo st u = st := by simp [putTodo, h]
      rw [hu, h1]
    · obtain ⟨l', h1, h2⟩ := ih (putTodo st u)
      refine ⟨u :: l', ?_, h2.cons₂ u⟩
      rw [List.foldl_cons, h1]
      have hu : (putTodo st u).todo = st.todo ++ [u] := by simp [putTodo, h]
      rw [hu, List.append_assoc]
      rfl

theorem onFoundLinks_inv (sm : ParsedUrl → List (List ParsedUrl)) (fuel : ℕ)
    (st : CrawlerState) (b : List ParsedUrl) (h1 : st.todo.Nodup)
    (h2 : ∀ u ∈ st.todo, u ∈ st.urls_seen) :
    st.urls_seen ⊆ (onFoundLinks sm fuel st b).1.urls_seen
    ∧ (onFoundLinks sm fuel st b).1.todo.Nodup
    ∧ ∀ u ∈ (onFoundLinks sm fuel st b).1.todo,
        u ∈ (onFoundLinks sm fuel st b).1.urls_seen := by
  have hsub := ackDomains_seen_subset sm fuel b st.urls_seen
  unfold onFoundLinks
  split
  · rename_i seen' e heq
    have hfst : (ackDomains sm fuel b st.urls_seen).1 = seen' := by rw [heq]
    rw [hfst] at hsub
    exact ⟨hsub, h1, fun u hu => hsub (h2 u hu)⟩
  · rename_i seen' new heq
    have hfst : (ackDomains sm fuel b st.urls_seen).1 = seen' := by rw [heq]
    have hsnd : (ackDomains sm fuel b st.urls_seen).2 = .ok new := by rw [heq]
    rw [hfst] at hsub
    obtain ⟨hnodup, hfresh, hmem⟩ := ackDomains_ok sm fuel b st.urls_seen new hsnd
    rw [hfst] at hmem
    obtain ⟨l', htodo, hsl⟩ :=
      foldl_putTodo_todo new { st with urls_seen := seen' }
    have hseen : (new.foldl putTodo { st with urls_seen := seen' }).urls_seen =
        seen' := foldl_putTodo_urls_seen new _
    refine ⟨by simpa [hseen] using hsub, ?_, ?_⟩
    · rw [htodo]
      refine List.nodup_append.mpr ⟨h1, hsl.nodup hnodup, ?_⟩
      intro u hu hul
      exact hfresh u (hsl.subset hul) (h2 u hu)
    · intro u hu
      rw [htodo] at hu
      rw [hseen]
      rcases List.mem_append.mp hu with h | h
      · exact hsub (h2 u h)
      · exact hmem u (hsl.subset h)

/-- Claim C1 (confirmed): over any sequence of URL batches fed through the
found-links pipeline from a state whose enqueue log is duplicate-free and
contained in `_urls_seen` (in particular the crawler's initial state, with
both empty), the seen set only grows, the enqueue log stays duplicate-free —
each unique parsed URL has a crawl task enqueued for it at most once, even
across repeated or overlapping batches — and every enqueued URL is in the
seen set.  Membership in the `Finset` model of the Python `set` makes "added
to `seen` at most once" inherent: re-adding an element is the identity. -/
theorem found_links_dedup (sm : ParsedUrl → List (List ParsedUrl)) (fuel : ℕ)
    (batches : List (List ParsedUrl)) (st₀ : CrawlerState)
    (h1 : st₀.todo.Nodup) (h2 : ∀ u ∈ st₀.todo, u ∈ st₀.urls_seen) :
    st₀.urls_seen ⊆ (runBatches sm fuel batches st₀).1.urls_seen
    ∧ (runBatches sm fuel batches st₀).1.todo.Nodup
    ∧ ∀ u ∈ (runBatches sm fuel batches st₀).1.todo,
        u ∈ (runBatches sm fuel batches st₀).1.urls_seen := by
  induction batches generalizing st₀ with
  | nil => exact ⟨Finset.Subset.refl _, h1, h2⟩
  | cons b bs ih =>
    obtain ⟨hsub, hnodup, hmem⟩ := onFoundLinks_inv sm fuel st₀ b h1 h2
    simp only [runBatches]
    split
    · rename_i st' heq
      have hst' : (onFoundLinks sm fuel st₀ b).1 = st' := by rw [heq]
      rw [hst'] at hsub hnodup hmem
      obtain ⟨ih1, ih2, ih3⟩ := ih st' hnodup hmem
      exact ⟨hsub.trans ih1, ih2, ih3⟩
    · rename_i st' e heq
      have hst' : (onFoundLinks sm fuel st₀ b).1 = st' := by rw [heq]
      rw [hst'] at hsub hnodup hmem
      exact ⟨hsub, hnodup, hmem⟩

/-- Witness for `found_links_dedup`: the same seed URL appears in two
successive batches; it is enqueued exactly once. -/
theorem found_links_dedup_witness :
    (⟨∅, [], 0, 5⟩ : CrawlerState).urls_seen ⊆
      (runBatches (fun _ => [[]]) 2 [[exampleUrl], [exampleUrl]]
        ⟨∅, [], 0, 5⟩).1.urls_seen
    ∧ (runBatches (fun _ => [[]]) 2 [[exampleUrl], [exampleUrl]]
        ⟨∅, [], 0, 5⟩).1.todo.Nodup
    ∧ ∀ u ∈ (runBatches (fun _ => [[]]) 2 [[exampleUrl], [exampleUrl]]
        ⟨∅, [], 0, 5⟩).1.todo,
        u ∈ (runBatches (fun _ => [[]]) 2 [[exampleUrl], [exampleUrl]]
          ⟨∅, [], 0, 5⟩).1.urls_seen :=
  found_links_dedup (fun _ => [[]]) 2 [[exampleUrl], [exampleUrl]]
    ⟨∅, [], 0, 5⟩ (by simp) (by simp)

theorem foldl_all_false {α β : Type} (g : β × Bool → α → β × Bool)
    (hg : ∀ acc a, (g acc a).2 = false) :
    ∀ (l : List α) (acc : β × Bool),
      (l.foldl g acc).2 = true → l = [] ∧ acc.2 = true := by
  intro l
  induction l with
  | nil => intro acc h; exact ⟨rfl, h⟩
  | cons a t ih =>
    intro acc h
    obtain ⟨_, hacc⟩ := ih (g acc a) h
    rw [hg acc a] at hacc
    cases hacc

/-- In the environment the program actually realises — `respect` stores the
robots parser without ever calling `read()`, so `get_site_maps` returns
`None` for every domain and `sm u = []` — `_acknowledge_domains` can return
normally only with an empty `new` set: any new URL reaches
`await asyncio.wait([])` and raises `ValueError` first. -/
theorem ackDomains_no_sitemaps (fuel : ℕ) (batch : List ParsedUrl)
    (seen : Finset ParsedUrl) (new : List ParsedUrl)
    (h : (ackDomains (fun _ => []) fuel batch seen).2 = .ok new) :
    new = [] := by
  cases fuel with
  | zero =>
    simp only [ackDomains] at h
    cases h
    rfl
  | succ fuel =>
    simp only [ackDomains] at h
    revert h
    split
    · intro h
      cases h
    · rename_i s' heq
      intro h
      cases h
      have h2 := congrArg Prod.snd heq
      obtain ⟨hl, -⟩ := foldl_all_false _
        (by rintro ⟨s, fl⟩ u; cases fl <;> simp) _ _ h2
      exact hl

/-- Under the realised no-sitemaps environment, `_on_found_links` never
enqueues anything: either every URL of the batch was already seen (empty
`new`, nothing to `_put_todo`) or the `asyncio.wait([])` `ValueError`
aborts before the `_put_todo` loop. -/
theorem onFoundLinks_no_sitemaps (fuel : ℕ) (st : CrawlerState)
    (batch : List ParsedUrl) :
    (onFoundLinks (fun _ => []) fuel st batch).1.todo = st.todo := by
  unfold onFoundLinks
  rcases heq : ackDomains (fun _ => []) fuel batch st.urls_seen
    with ⟨seen', res⟩
  cases res with
  | error e => rfl
  | ok new =>
    have hnew : new = [] :=
      ackDomains_no_sitemaps fuel batch st.urls_seen new
        (by rw [heq])
    subst hnew
    rfl

/-- Claim C8, counterexample: with page limit `L = 0` and the single seed
`https://example.com/`, the real run enqueues zero tasks, not one:
`respect` never reads the robots file, so `get_site_maps` yields `None`
for every domain, the sitemap task list is empty, and `asyncio.wait([])`
raises `ValueError` inside `_acknowledge_domains` before `_put_todo` is
ever reached. -/
theorem l_zero_single_seed_counterexample :
    (onFoundLinks (fun _ => []) 1 ⟨∅, [], 0, 0⟩ [exampleUrl]).1.todo = []
    ∧ (onFoundLinks (fun _ => []) 1 ⟨∅, [], 0, 0⟩ [exampleUrl]).2
        = some PyExc.valueError := by
  exact ⟨by decide, by decide⟩

/-- Claim C8 (corrected): an enqueue attempt through `_put_todo` is dropped
(the state is unchanged) precisely when `_total_pages > _limit` already
holds at the moment of the call; otherwise the counter is incremented and
the URL's crawl task is enqueued, so with the strict check the first
attempt from counter `0` at limit `L = 0` would be allowed.  But the
claimed scenario "with `L = 0` and a single seed, exactly one task is
enqueued" is false of the program: `get_site_maps` always returns `None`
(the robots file is never read), so `_acknowledge_domains` hits
`asyncio.wait([])` and raises `ValueError` for every new URL, and no run
of `_on_found_links` ever enqueues anything. -/
theorem put_todo_cap :
    (∀ (st : CrawlerState) (u : ParsedUrl), st.total_pages > st.limit →
      putTodo st u = st)
    ∧ (∀ (st : CrawlerState) (u : ParsedUrl), ¬ st.total_pages > st.limit →
      (putTodo st u).todo = st.todo ++ [u]
      ∧ (putTodo st u).total_pages = st.total_pages + 1)
    ∧ ∀ (fuel : ℕ) (st : CrawlerState) (batch : List ParsedUrl),
        (onFoundLinks (fun _ => []) fuel st batch).1.todo = st.todo := by
  refine ⟨?_, ?_, onFoundLinks_no_sitemaps⟩
  · intro st u h
    simp [putTodo, h]
  · intro st u h
    constructor <;> simp [putTodo, h]

/-- Witness for `put_todo_cap`: a call with the counter above the limit is
dropped, a call at the `L = 0` boundary enqueues, and the no-sitemaps run
leaves the queue empty. -/
theorem put_todo_cap_witness :
    putTodo ⟨∅, [], 3, 2⟩ exampleUrl = ⟨∅, [], 3, 2⟩
    ∧ (putTodo ⟨∅, [], 0, 0⟩ exampleUrl).todo = [] ++ [exampleUrl]
    ∧ (onFoundLinks (fun _ => []) 1 ⟨∅, [], 0, 0⟩ [exampleUrl]).1.todo = [] :=
  ⟨put_todo_cap.1 ⟨∅, [], 3, 2⟩ exampleUrl (by decide),
   (put_todo_cap.2.1 ⟨∅, [], 0, 0⟩ exampleUrl (by decide)).1,
   put_todo_cap.2.2 1 ⟨∅, [], 0, 0⟩ [exampleUrl]⟩

/-- Claim C9, counterexample: with a negative page limit `-2` (a legal
`options["limit"]` value) the counter already exceeds `_limit + 1 = -1`
before and after any `_put_todo` call: the claimed bound fails because the
counter starts at `0` regardless of the limit. -/
theorem total_pages_negative_limit_counterexample :
    (putTodo ⟨∅, [], 0, -2⟩ exampleUrl).total_pages = 0
    ∧ ¬ ((0 : ℤ) ≤ (-2 : ℤ) + 1) := by
  exact ⟨by decide, by decide⟩

/-- Claim C9 (corrected): in any sequential execution of `_put_todo` calls,
`_total_pages` never exceeds `max 0 (_limit + 1)` — equivalently, it never
exceeds `_limit + 1` whenever `_limit ≥ -1`, which covers every meaningful
configuration: the check `_total_pages > _limit` happens immediately before
the increment, so the cap is overshot by at most one enqueued task in
total. -/
theorem total_pages_le_limit_succ (urls : List ParsedUrl) :
    ∀ st : CrawlerState, st.total_pages ≤ max 0 (st.limit + 1) →
      (urls.foldl putTodo st).total_pages ≤ max 0 (st.limit + 1) := by
  induction urls with
  | nil => intro st h; exact h
  | cons u t ih =>
    intro st h
    rw [List.foldl_cons]
    have hlim : (putTodo st u).limit = st.limit := putTodo_limit st u
    have hnext : (putTodo st u).total_pages ≤ max 0 (st.limit + 1) := by
      by_cases hc : st.total_pages > st.limit
      · simpa [putTodo, hc] using h
      · have : (putTodo st u).total_pages = st.total_pages + 1 := by
          simp [putTodo, hc]
        rw [this]
        have := not_lt.mp hc
        exact le_trans (by omega) (le_max_right 0 (st.limit + 1))
    have := ih (putTodo st u) (by rw [hlim]; exact hnext)
    rw [hlim] at this
    exact this

/-- Witness for `total_pages_le_limit_succ`: three enqueue attempts at limit
`0` leave the counter at most `1`. -/
theorem total_pages_le_limit_succ_witness :
    (([exampleUrl, exampleUrl, exampleUrl] : List ParsedUrl).foldl putTodo
      ⟨∅, [], 0, 0⟩).total_pages ≤ max 0 ((0 : ℤ) + 1) :=
  total_pages_le_limit_succ [exampleUrl, exampleUrl, exampleUrl]
    ⟨∅, [], 0, 0⟩ (by decide)

/-! Filter engine (naja/filters.py).

This is the filter generation the crawler imports (`from naja import
filters`) and the one the spec's design notes consolidate on; the superseded
`naja/filterers/filters.py` generation differs (in-place, non-toggling
`__invert__`, class-level shared `_chained`).
-/

/-- Python `str.lower` restricted to the ASCII range, which is all the
embedded code ever lowercases (scheme characters and the filter examples). -/
def pyLower (s : List Nat) : List Nat :=
  s.map (fun c => if 65 ≤ c ∧ c ≤ 90 then c + 32 else c)

/-- Code point constants used by the URL model. -/
def dotChar : Nat := 46

def slashChar : Nat := 47

/-- Model of `pathlib.Path(path).name`: the last path component, after
splitting on `/` and dropping empty and `"."` components. -/
def pathlibName (p : List Nat) : List Nat :=
  (((p.splitOn slashChar).filter
    (fun comp => comp ≠ [] ∧ comp ≠ [dotChar])).getLast?).getD []

/-- Model of `pathlib.Path(path).suffix`: the final component's extension
`name[i:]` for `i` the index of the last dot, provided `0 < i < len(name)-1`,
else empty. -/
def pathlibSuffix (p : List Nat) : List Nat :=
  let name := pathlibName p
  let extRev := name.reverse.takeWhile (fun c => c ≠ dotChar)
  if extRev.length = name.length then []
  else if name.length - 1 - extRev.length = 0 then []
  else if extRev.length = 0 then []
  else dotChar :: extRev.reverse

/-- `ParsedUrl.filetype` (naja/parsers.py, lines 89-91):
`Path(self.path).suffix.replace(".", "")` — the suffix contains exactly one
dot when non-empty, so the replacement just strips it. -/
def ParsedUrl.filetype (u : ParsedUrl) : List Nat :=
  (pathlibSuffix u.path).filter (fun c => c ≠ dotChar)

/-- The `UrlProperty` literal of naja/filters.py: the URL fields a filter can
target. -/
inductive UrlProperty where
  | domain
  | path
  | params
  | query
  | fragment
  | scheme
  | filetype
  deriving DecidableEq, Repr

/-- `Filter._get_url_property` without the text-filter lowering:
`getattr(url, self.url_prop)`. -/
def getProp (u : ParsedUrl) : UrlProperty → List Nat
  | .domain => u.domain
  | .path => u.path
  | .params => u.params
  | .query => u.query
  | .fragment => u.fragment
  | .scheme => u.scheme
  | .filetype => u.filetype

/-- The subclass-specific state of a filter variant, as set up by each
subclass's `__init__`:
* `In` stores `set(group)` and tests membership (`set` semantics coincide
  with list membership);
* `Matches` stores a compiled pattern; `re.match(regex, value) is not None`
  is modelled as an opaque predicate on the property value, since the `re`
  engine is an external library;
* the three `TextFilter` variants store the text (already lowercased by
  `__init__` when `case_sensitive=False`) and the case flag.
-/
inductive FilterKind where
  | inSet (group : List (List Nat))
  | matches (pattern : List Nat → Bool)
  | startsWith (text : List Nat) (case_sensitive : Bool)
  | endsWith (text : List Nat) (case_sensitive : Bool)
  | contains (text : List Nat) (case_sensitive : Bool)

/-- `naja.filters.Filter` instance state: the base-class slots `url_prop`,
`__inverted`, `_chained` plus the subclass state.  `copy.deepcopy` in the
source gives the combinators value semantics, matching this immutable
model. -/
inductive Filter where
  | mk (url_prop : UrlProperty) (kind : FilterKind) (inverted : Bool)
      (chained : List Filter)

/-- The `_chained` slot. -/
def Filter.chained : Filter → List Filter
  | .mk _ _ _ ch => ch

/-- Python substring containment `needle in haystack`: some contiguous
slice of `haystack` equals `needle` (always true for the empty needle). -/
def substringOf (needle : List Nat) : List Nat → Bool
  | [] => needle.isEmpty
  | c :: rest => needle.isPrefixOf (c :: rest) || substringOf needle rest

/-- Dispatch of the abstract `_apply` over the subclasses, including the
`TextFilter._get_url_property` override that lowercases the property value
when `case_sensitive` is false. -/
def applyKind (prop : UrlProperty) (k : FilterKind) (u : ParsedUrl) : Bool :=
  match k with
  | .inSet group => group.contains (getProp u prop)
  | .matches pattern => pattern (getProp u prop)
  | .startsWith text cs =>
    text.isPrefixOf (if cs then getProp u prop else pyLower (getProp u prop))
  | .endsWith text cs =>
    text.isSuffixOf (if cs then getProp u prop else pyLower (getProp u prop))
  | .contains text cs =>
    substringOf text (if cs then getProp u prop else pyLower (getProp u prop))

mutual

/-- `Filter.filter` / `Filter.__call__` (naja/filters.py, lines 107-124):
`all((*(f.filter(url) for f in self._chained), bool(self._apply(url) -
self.__inverted)))`.  On Python bools, `bool(a - b)` is exclusive or:
`True - False = 1`, `False - True = -1` and `bool(-1) = True`, equal
arguments give `0`. -/
def Filter.eval : Filter → ParsedUrl → Bool
  | .mk prop kind inv ch, u => Filter.evalAll ch u && xor (applyKind prop kind u) inv

/-- Conjunction over the `_chained` filters, in list order. -/
def Filter.evalAll : List Filter → ParsedUrl → Bool
  | [], _ => true
  | f :: fs, u => Filter.eval f u && Filter.evalAll fs u

end

/-- `Filter.__invert__` (naja/filters.py, lines 126-129): deep-copy and
toggle the own `__inverted` flag; the chained conjuncts are copied
unchanged. -/
def Filter.invert : Filter → Filter
  | .mk prop kind inv ch => .mk prop kind (!inv) ch

/-- `Filter.__and__` (naja/filters.py, lines 131-136): deep-copy `self` and
append `other` to the copy's `_chained` list. -/
def Filter.and : Filter → Filter → Filter
  | .mk prop kind inv ch, g => .mk prop kind inv (ch ++ [g])

/-- `In.__init__` (naja/filters.py, lines 139-145). -/
def mkIn (prop : UrlProperty) (group : List (List Nat)) : Filter :=
  .mk prop (.inSet group) false []

/-- `Matches.__init__` with an opaque compiled pattern. -/
def mkMatches (prop : UrlProperty) (pattern : List Nat → Bool) : Filter :=
  .mk prop (.matches pattern) false []

/-- `StartsWith.__init__` via `TextFilter.__init__` (naja/filters.py, lines
159-167): the stored text is lowercased when `case_sensitive` is false. -/
def mkStartsWith (prop : UrlProperty) (text : List Nat) (cs : Bool) : Filter :=
  .mk prop (.startsWith (if cs then text else pyLower text) cs) false []

/-- `EndsWith.__init__` via `TextFilter.__init__`. -/
def mkEndsWith (prop : UrlProperty) (text : List Nat) (cs : Bool) : Filter :=
  .mk prop (.endsWith (if cs then text else pyLower text) cs) false []

/-- `Contains.__init__` via `TextFilter.__init__`. -/
def mkContains (prop : UrlProperty) (text : List Nat) (cs : Bool) : Filter :=
  .mk prop (.contains (if cs then text else pyLower text) cs) false []

theorem evalAll_append (l1 l2 : List Filter) (u : ParsedUrl) :
    Filter.evalAll (l1 ++ l2) u = (Filter.evalAll l1 u && Filter.evalAll l2 u) := by
  induction l1 with
  | nil => simp [Filter.evalAll]
  | cons f fs ih => simp [Filter.evalAll, ih, Bool.and_assoc]

/-- Claim C6, counterexample: for the `&`-built filter
`f = In("domain", ["example.com"]) & In("domain", [])` and the URL
`https://example.com/`, `(~f)(u)` is `False` while `not f(u)` is `True`:
`__invert__` only toggles the filter's own `__inverted` flag, leaving the
chained conjunct un-negated, so `(~f)(u) == not f(u)` fails. -/
theorem invert_chained_counterexample :
    Filter.eval (Filter.invert (Filter.and (mkIn .domain [pyStr "example.com"])
      (mkIn .domain []))) exampleUrl = false
    ∧ (!(Filter.eval (Filter.and (mkIn .domain [pyStr "example.com"])
      (mkIn .domain [])) exampleUrl)) = true := by
  exact ⟨by decide, by decide⟩

/-- Claim C6 (corrected): for all filters `f, g` built from the variants of
naja/filters.py and every URL `u`: `(f & g)(u) == f(u) and g(u)` holds
unconditionally, and `~(~f)` evaluates identically to `f` (double negation
toggles the `__inverted` flag twice); but `(~f)(u) == not f(u)` holds only
for filters whose `_chained` list is empty (every directly constructed
variant) — on an `&`-built filter, `~` negates only the filter's own
predicate and leaves the chained conjuncts un-negated.  Evaluation is pure
in this model, so it cannot mutate the URL. -/
theorem filter_composition_laws :
    (∀ (f g : Filter) (u : ParsedUrl),
      (Filter.and f g).eval u = (f.eval u && g.eval u))
    ∧ (∀ (f : Filter) (u : ParsedUrl), f.chained = [] →
      (Filter.invert f).eval u = !(f.eval u))
    ∧ (∀ (f : Filter) (u : ParsedUrl),
      (Filter.invert (Filter.invert f)).eval u = f.eval u) := by
  refine ⟨?_, ?_, ?_⟩
  · rintro ⟨p, k, inv, ch⟩ g u
    simp only [Filter.and, Filter.eval, evalAll_append, Filter.evalAll,
      Bool.and_true]
    cases Filter.evalAll ch u <;> cases g.eval u <;>
      cases applyKind p k u <;> cases inv <;> rfl
  · rintro ⟨p, k, inv, ch⟩ u h
    simp only [Filter.chained] at h
    subst h
    simp only [Filter.invert, Filter.eval, Filter.evalAll, Bool.true_and]
    cases applyKind p k u <;> cases inv <;> rfl
  · rintro ⟨p, k, inv, ch⟩ u
    simp [Filter.invert, Bool.not_not]

/-- Witness for `filter_composition_laws`: the negation law applied to a
directly constructed `In` filter (empty chain). -/
theorem filter_composition_laws_witness :
    (Filter.invert (mkIn .domain [pyStr "example.com"])).eval exampleUrl =
      !((mkIn .domain [pyStr "example.com"]).eval exampleUrl) :=
  filter_composition_laws.2.1 (mkIn .domain [pyStr "example.com"]) exampleUrl
    rfl

/-! URL parsing (naja/parsers.py, `parse_url` and `ParsedUrl.raw`).

`parse_url` delegates to `urllib.parse.urlparse` and `ParsedUrl.raw` to
`urllib.parse.urlunparse`; both standard-library functions are embedded here
from the Lib/urllib/parse.py of the CPython 3.11.6 interpreter the package
runs on: `urlsplit` strips leading C0-control/space characters and removes
tab/CR/LF, requires the scheme to start with an ASCII letter, validates
bracketed hosts, and `_checknetloc`s the netloc; `urlparse` splits params
only for schemes in `uses_params`; `urlunsplit` emits the `//` marker when
there is a netloc or when a `uses_netloc` scheme's path does not already
start with `//`.  The two validators that call into `ipaddress`/`re`
(`_check_bracketed_host`) and `unicodedata` (the NFKC arm of `_checknetloc`)
are taken as function parameters, like `tldextract` in the limiter
embedding: `true` means the check passes, `false` that it raises
`ValueError`.
-/

def tabChar : Nat := 9

def lfChar : Nat := 10

def crChar : Nat := 13

def hashChar : Nat := 35

def qmarkChar : Nat := 63

def colonChar : Nat := 58

def semiChar : Nat := 59

def lbrackChar : Nat := 91

def rbrackChar : Nat := 93

/-- `_UNSAFE_URL_BYTES_TO_REMOVE = ["\t", "\r", "\n"]`. -/
def isUnsafeUrlByte (c : Nat) : Bool :=
  decide (c = tabChar) || decide (c = crChar) || decide (c = lfChar)

/-- The sanitising loop of `urlsplit`: every tab, carriage return and
newline is removed from the URL before parsing. -/
def removeUnsafeBytes (l : List Nat) : List Nat :=
  l.filter (fun c => !(isUnsafeUrlByte c))

/-- `url.lstrip(_WHATWG_C0_CONTROL_OR_SPACE)` at the top of `urlsplit`:
leading C0 control characters and spaces (code points 0 through 32) are
stripped before parsing. -/
def lstripC0 (l : List Nat) : List Nat :=
  l.dropWhile (fun c => decide (c ≤ 32))

/-- `urllib.parse.uses_params`. -/
def usesParams : List (List Nat) :=
  [pyStr "", pyStr "ftp", pyStr "hdl", pyStr "prospero", pyStr "http",
   pyStr "imap", pyStr "https", pyStr "shttp", pyStr "rtsp", pyStr "rtsps",
   pyStr "rtspu", pyStr "sip", pyStr "sips", pyStr "mms", pyStr "sftp",
   pyStr "tel"]

/-- `urllib.parse.uses_netloc`. -/
def usesNetloc : List (List Nat) :=
  [pyStr "", pyStr "ftp", pyStr "http", pyStr "gopher", pyStr "nntp",
   pyStr "telnet", pyStr "imap", pyStr "wais", pyStr "file", pyStr "mms",
   pyStr "https", pyStr "shttp", pyStr "snews", pyStr "prospero",
   pyStr "rtsp", pyStr "rtsps", pyStr "rtspu", pyStr "rsync", pyStr "svn",
   pyStr "svn+ssh", pyStr "sftp", pyStr "nfs", pyStr "git", pyStr "git+ssh",
   pyStr "ws", pyStr "wss"]

/-- `netloc.partition('[')[2].partition(']')[0]`: the text between the
first `[` of the netloc and the first `]` after it, handed to
`_check_bracketed_host`. -/
def bracketedHost (nl : List Nat) : List Nat :=
  ((nl.dropWhile (fun c => decide (c ≠ lbrackChar))).drop 1).takeWhile
    (fun c => decide (c ≠ rbrackChar))

/-- The early-return guard of `_checknetloc`
(`if not netloc or netloc.isascii(): return`): an empty or all-ASCII
netloc is accepted without consulting the NFKC normalisation check. -/
def netlocAscii (nl : List Nat) : Bool :=
  nl.isEmpty || nl.all (fun c => decide (c < 128))

/-- ASCII letter test (`str.isascii() and str.isalpha()` on one char). -/
def isAsciiAlpha (c : Nat) : Bool :=
  (decide (65 ≤ c) && decide (c ≤ 90)) || (decide (97 ≤ c) && decide (c ≤ 122))

/-- `scheme_chars = ascii_letters + digits + "+-."`. -/
def isSchemeChar (c : Nat) : Bool :=
  isAsciiAlpha c || (decide (48 ≤ c) && decide (c ≤ 57)) ||
    decide (c = 43) || decide (c = 45) || decide (c = dotChar)

/-- First character is an ASCII letter. -/
def alphaHead : List Nat → Bool
  | [] => false
  | c :: _ => isAsciiAlpha c

/-- The guard of the scheme-splitting block of `urlsplit`:
`i = url.find(':')` must be positive, `url[0]` an ASCII letter and every
character of `url[:i]` a scheme character.  `url[:i]` is the maximal
colon-free prefix when a colon exists at all. -/
def wouldSplitScheme (t : List Nat) : Bool :=
  let A := t.takeWhile (fun c => decide (c ≠ colonChar))
  if A.length = t.length then false
  else if A.isEmpty then false
  else alphaHead A && A.all isSchemeChar

/-- The scheme-splitting block of `urlsplit`: on success the scheme is
lowercased (`url[:i].lower()`) and the rest follows the colon. -/
def splitScheme (t : List Nat) : List Nat × List Nat :=
  let A := t.takeWhile (fun c => decide (c ≠ colonChar))
  if wouldSplitScheme t then (pyLower A, t.drop (A.length + 1)) else ([], t)

/-- `url.split(sep, 1)` preceded by a containment check, as `urlsplit` does
for `#` and `?`: the first component is the part before the first separator,
the second the part after it (empty when the separator is absent — the same
result as not splitting at all). -/
def splitFirst (sep : Nat) (l : List Nat) : List Nat × List Nat :=
  let pre := l.takeWhile (fun c => decide (c ≠ sep))
  (pre, l.drop (pre.length + 1))

/-- The netloc delimiters of `_splitnetloc`: `'/?#'`. -/
def isNetlocEnd (c : Nat) : Bool :=
  decide (c = slashChar) || decide (c = qmarkChar) || decide (c = hashChar)

/-- `_splitnetloc(url, 2)` without the already-dropped `'//'`: the netloc
runs to the first `/`, `?` or `#`, which stays in the remainder. -/
def splitNetloc (l : List Nat) : List Nat × List Nat :=
  let pre := l.takeWhile (fun c => !(isNetlocEnd c))
  (pre, l.drop pre.length)

/-- The part of `P` after its last `/` (all of `P` when it has none):
the region in which `_splitparams` searches for `;`. -/
def lastSeg (P : List Nat) : List Nat :=
  (P.reverse.takeWhile (fun c => decide (c ≠ slashChar))).reverse

/-- `_splitparams`, which `urlparse` only invokes when `';' in url` (the
outer guard here restates that calling convention; `paramsSplit` below holds
the full call-site guard): with a slash present, the first `;` at or after
the last `/` splits path from params (no such `;` means no params); without
a slash, the first `;` splits. -/
def splitParams (P : List Nat) : List Nat × List Nat :=
  if semiChar ∈ P then
    if slashChar ∈ P then
      let seg := lastSeg P
      let pre := seg.takeWhile (fun c => decide (c ≠ semiChar))
      if pre.length = seg.length then (P, [])
      else (P.take (P.length - seg.length) ++ pre, seg.drop (pre.length + 1))
    else
      let pre := P.takeWhile (fun c => decide (c ≠ semiChar))
      (pre, P.drop (pre.length + 1))
  else (P, [])

/-- The params stage of `urlparse`: `if scheme in uses_params and ';' in
url: url, params = _splitparams(url) else: params = ''`. -/
def paramsSplit (sc P : List Nat) : List Nat × List Nat :=
  if sc ∈ usesParams ∧ semiChar ∈ P then splitParams P else (P, [])

/-- `naja.parsers.parse_url` (naja/parsers.py, lines 94-111):
`urllib.parse.urlparse` of CPython 3.11.6 feeding the six components into
the `ParsedUrl` dataclass.  A netloc with unbalanced square brackets raises
`ValueError("Invalid IPv6 URL")`; a balanced bracketed host is validated by
`_check_bracketed_host` (parameter `chkB`); a non-ASCII netloc is validated
by the NFKC arm of `_checknetloc` (parameter `chkN`). -/
def parse_url (chkB chkN : List Nat → Bool) (url : List Nat) :
    Except PyExc ParsedUrl :=
  let t := removeUnsafeBytes (lstripC0 url)
  let p1 := splitScheme t
  let p2 :=
    if p1.2.take 2 = [slashChar, slashChar] then splitNetloc (p1.2.drop 2)
    else ([], p1.2)
  if (lbrackChar ∈ p2.1 ∧ rbrackChar ∉ p2.1)
      ∨ (rbrackChar ∈ p2.1 ∧ lbrackChar ∉ p2.1) then
    .error .valueError
  else if lbrackChar ∈ p2.1 ∧ rbrackChar ∈ p2.1
      ∧ chkB (bracketedHost p2.1) = false then
    .error .valueError
  else
    let p3 := splitFirst hashChar p2.2
    let p4 := splitFirst qmarkChar p3.1
    if netlocAscii p2.1 = false ∧ chkN p2.1 = false then
      .error .valueError
    else
      let p5 := paramsSplit p1.1 p4.1
      .ok ⟨p1.1, p2.1, p5.1, p5.2, p4.2, p3.2⟩

/-- `urlunparse`'s re-attachment of the params: `if params:
url = "%s;%s" % (url, params)`. -/
def joinParams (p pr : List Nat) : List Nat :=
  if pr.isEmpty then p else p ++ semiChar :: pr

/-- `urllib.parse.urlunsplit` (CPython 3.11.6): the `//` marker is emitted
`if netloc or (scheme and scheme in uses_netloc and url[:2] != '//')`. -/
def urlunsplit (scheme netloc url query fragment : List Nat) : List Nat :=
  let url1 :=
    if !netloc.isEmpty
        || (!scheme.isEmpty && decide (scheme ∈ usesNetloc)
            && decide (url.take 2 ≠ [slashChar, slashChar])) then
      slashChar :: slashChar :: netloc ++
        (match url with
         | [] => []
         | c :: rest =>
           if c = slashChar then c :: rest else slashChar :: c :: rest)
    else url
  let url2 := if !scheme.isEmpty then scheme ++ colonChar :: url1 else url1
  let url3 := if !query.isEmpty then url2 ++ qmarkChar :: query else url2
  if !fragment.isEmpty then url3 ++ hashChar :: fragment else url3

/-- `ParsedUrl.raw` (naja/parsers.py, lines 76-87): `urlunparse` over the six
stored components. -/
def ParsedUrl.raw (u : ParsedUrl) : List Nat :=
  urlunsplit u.scheme u.domain (joinParams u.path u.params) u.query u.fragment

/-! List lemmas supporting the `parse_url` round-trip proof. -/

theorem takeWhile_all {p : Nat → Bool} {l : List Nat}
    (h : ∀ c ∈ l, p c = true) : l.takeWhile p = l := by
  induction l with
  | nil => rfl
  | cons c t ih =>
    rw [List.takeWhile_cons, h c (by simp)]
    simp [ih (fun c hc => h c (by simp [hc]))]

theorem takeWhile_append_all {p : Nat → Bool} {l : List Nat} (t : List Nat)
    (h : ∀ c ∈ l, p c = true) :
    (l ++ t).takeWhile p = l ++ t.takeWhile p := by
  induction l with
  | nil => rfl
  | cons c r ih =>
    rw [List.cons_append, List.takeWhile_cons, h c (by simp)]
    simp only [ite_true]
    rw [ih (fun c hc => h c (by simp [hc]))]
    rfl

theorem takeWhile_cons_false {p : Nat → Bool} {x : Nat} (r : List Nat)
    (h : p x = false) : (x :: r).takeWhile p = [] := by
  rw [List.takeWhile_cons, h]
  rfl

theorem takeWhile_append_cons {p : Nat → Bool} {l : List Nat} {x : Nat}
    (r : List Nat) (h : ∀ c ∈ l, p c = true) (hx : p x = false) :
    (l ++ x :: r).takeWhile p = l := by
  rw [takeWhile_append_all (x :: r) h, takeWhile_cons_false r hx,
    List.append_nil]

theorem drop_len_append (l t : List Nat) : (l ++ t).drop l.length = t :=
  List.drop_left l t

theorem drop_len_succ_append (l : List Nat) (x : Nat) (r : List Nat) :
    (l ++ x :: r).drop (l.length + 1) = r := by
  have h : l ++ x :: r = (l ++ [x]) ++ r := by simp
  have hlen : (l ++ [x]).length = l.length + 1 := by simp
  rw [h, ← hlen, List.drop_left]

theorem dropWhile_head_false {p : Nat → Bool} {l : List Nat} {x : Nat}
    {rest : List Nat} (h : l.dropWhile p = x :: rest) : p x = false := by
  induction l with
  | nil => cases h
  | cons c t ih =>
    rw [List.dropWhile_cons] at h
    by_cases hc : p c = true
    · exact ih (by simpa [hc] using h)
    · have hc' : p c = false := by simpa using hc
      simp only [hc', ite_false, Bool.false_eq_true, if_false] at h
      cases h
      exact hc'

theorem takeWhile_length_ne {p : Nat → Bool} {l : List Nat}
    (h : (l.takeWhile p).length ≠ l.length) :
    ∃ x rest, l = l.takeWhile p ++ x :: rest ∧ p x = false := by
  have hsplit := List.takeWhile_append_dropWhile (p := p) (l := l)
  rcases hd : l.dropWhile p with _ | ⟨x, rest⟩
  · exfalso
    apply h
    rw [hd, List.append_nil] at hsplit
    rw [hsplit]
  · exact ⟨x, rest, by rw [← hd, hsplit], dropWhile_head_false hd⟩

theorem takeWhile_eq_self_of_length {p : Nat → Bool} {l : List Nat}
    (h : (l.takeWhile p).length = l.length) : l.takeWhile p = l :=
  (List.takeWhile_prefix p).eq_of_length h

theorem all_of_takeWhile_eq_self {p : Nat → Bool} {l : List Nat}
    (h : l.takeWhile p = l) : ∀ c ∈ l, p c = true := by
  intro c hc
  induction l with
  | nil => cases hc
  | cons a t ih =>
    rw [List.takeWhile_cons] at h
    by_cases ha : p a = true
    · rcases List.mem_cons.mp hc with rfl | hct
      · exact ha
      · exact ih (by simpa [ha] using h) hct
    · simp only [Bool.not_eq_true] at ha
      rw [ha] at h
      cases h

theorem splitFirst_append {sep : Nat} {a : List Nat} (b : List Nat)
    (h : sep ∉ a) : splitFirst sep (a ++ sep :: b) = (a, b) := by
  unfold splitFirst
  have hpre : (a ++ sep :: b).takeWhile (fun c => decide (c ≠ sep)) = a :=
    takeWhile_append_cons b (fun c hc => by simp; exact fun h' => h (h' ▸ hc))
      (by simp)
  rw [hpre]
  show (a, (a ++ sep :: b).drop (a.length + 1)) = (a, b)
  rw [drop_len_succ_append]

theorem splitFirst_no {sep : Nat} {l : List Nat} (h : sep ∉ l) :
    splitFirst sep l = (l, []) := by
  unfold splitFirst
  have hpre : l.takeWhile (fun c => decide (c ≠ sep)) = l :=
    takeWhile_all (fun c hc => by simp; exact fun h' => h (h' ▸ hc))
  rw [hpre]
  simp [List.drop_eq_nil_of_le]

theorem splitFirst_reconstruct {sep : Nat} {l : List Nat} (h : sep ∈ l) :
    l = (splitFirst sep l).1 ++ sep :: (splitFirst sep l).2
    ∧ sep ∉ (splitFirst sep l).1 := by
  have hne : ((l.takeWhile (fun c => decide (c ≠ sep))).length ≠ l.length) := by
    intro heq
    have hall := all_of_takeWhile_eq_self (takeWhile_eq_self_of_length heq)
    have := hall sep h
    simp at this
  obtain ⟨x, rest, hdecomp, hx⟩ := takeWhile_length_ne hne
  have hxsep : x = sep := by simpa using hx
  subst hxsep
  have hmem : x ∉ l.takeWhile (fun c => decide (c ≠ x)) := by
    intro hc
    have := List.mem_takeWhile_imp hc
    simp at this
  refine ⟨?_, hmem⟩
  show l = (l.takeWhile (fun c => decide (c ≠ x))) ++ x ::
    (l.drop ((l.takeWhile (fun c => decide (c ≠ x))).length + 1))
  set tw := l.takeWhile (fun c => decide (c ≠ x)) with htw
  have hdrop : l.drop (tw.length + 1) = rest := by
    rw [hdecomp, drop_len_succ_append]
  rw [hdrop]
  exact hdecomp

theorem lastSeg_no_slash (P : List Nat) : slashChar ∉ lastSeg P := by
  intro h
  unfold lastSeg at h
  rw [List.mem_reverse] at h
  have := List.mem_takeWhile_imp h
  simp at this

theorem lastSeg_decomp (P : List Nat) :
    P = P.take (P.length - (lastSeg P).length) ++ lastSeg P
    ∧ (slashChar ∈ P →
        ∃ init', P.take (P.length - (lastSeg P).length) =
          init' ++ [slashChar]) := by
  have hsplit := List.takeWhile_append_dropWhile
    (p := fun c => decide (c ≠ slashChar)) (l := P.reverse)
  have hP : P = (P.reverse.dropWhile (fun c => decide (c ≠ slashChar))).reverse
      ++ lastSeg P := by
    unfold lastSeg
    conv_lhs => rw [← List.reverse_reverse P]
    conv_lhs => rw [← hsplit]
    rw [List.reverse_append]
  have hlen : (P.reverse.dropWhile (fun c => decide (c ≠ slashChar))).reverse.length
      = P.length - (lastSeg P).length := by
    have h1 : P.length =
        (P.reverse.dropWhile (fun c => decide (c ≠ slashChar))).reverse.length
          + (lastSeg P).length := by
      conv_lhs => rw [hP]
      simp
    omega
  have htake : P.take (P.length - (lastSeg P).length) =
      (P.reverse.dropWhile (fun c => decide (c ≠ slashChar))).reverse := by
    set D := (P.reverse.dropWhile (fun c => decide (c ≠ slashChar))).reverse
      with hD
    set S := lastSeg P with hS
    rw [← hlen]
    conv_lhs => rw [hP]
    rw [List.take_left]
  constructor
  · rw [htake]
    exact hP
  · intro hmem
    rw [htake]
    rcases hd : P.reverse.dropWhile (fun c => decide (c ≠ slashChar))
      with _ | ⟨c, rest⟩
    · exfalso
      rw [hd, List.append_nil] at hsplit
      have hall := all_of_takeWhile_eq_self hsplit
      have := hall slashChar (by rwa [List.mem_reverse])
      simp at this
    · have hc : c = slashChar := by
        have := dropWhile_head_false hd
        simpa using this
      subst hc
      exact ⟨rest.reverse, by simp⟩

theorem lastSeg_append_slash (a : List Nat) {b : List Nat}
    (h : slashChar ∉ b) : lastSeg (a ++ slashChar :: b) = b := by
  unfold lastSeg
  have hrev : (a ++ slashChar :: b).reverse =
      b.reverse ++ slashChar :: a.reverse := by
    simp
  rw [hrev, takeWhile_append_cons a.reverse
    (fun c hc => by
      simp only [decide_eq_true_eq]
      intro hceq
      exact h (by rwa [← List.mem_reverse, ← hceq]))
    (by simp), List.reverse_reverse]

theorem splitParams_eq (P : List Nat) :
    splitParams P =
      if semiChar ∈ P then
        if slashChar ∈ P then
          if semiChar ∈ lastSeg P then
            (P.take (P.length - (lastSeg P).length) ++
              (splitFirst semiChar (lastSeg P)).1,
             (splitFirst semiChar (lastSeg P)).2)
          else (P, [])
        else splitFirst semiChar P
      else (P, []) := by
  by_cases hs : semiChar ∈ P
  · by_cases hsl : slashChar ∈ P
    · by_cases hseg : semiChar ∈ lastSeg P
      · have hlen : ¬ ((lastSeg P).takeWhile
            (fun c => decide (c ≠ semiChar))).length = (lastSeg P).length := by
          intro heq
          have hall := all_of_takeWhile_eq_self (takeWhile_eq_self_of_length heq)
          have := hall semiChar hseg
          simp at this
        simp only [ne_eq, decide_not] at hlen
        simp [splitParams, splitFirst, hs, hsl, hseg, hlen]
      · have hlen : ((lastSeg P).takeWhile
            (fun c => decide (c ≠ semiChar))).length = (lastSeg P).length := by
          rw [takeWhile_all (fun c hc => by
            simp only [decide_eq_true_eq]
            intro hceq
            exact hseg (hceq ▸ hc))]
        simp only [ne_eq, decide_not] at hlen
        simp [splitParams, splitFirst, hs, hsl, hseg, hlen]
    · simp [splitParams, splitFirst, hs, hsl]
  · simp [splitParams, hs]

theorem splitParams_spec (P : List Nat) :
    (joinParams (splitParams P).1 (splitParams P).2 = P
      ∨ P = joinParams (splitParams P).1 (splitParams P).2 ++ [semiChar])
    ∧ splitParams (joinParams (splitParams P).1 (splitParams P).2) =
        splitParams P := by
  by_cases hs : semiChar ∈ P
  · by_cases hsl : slashChar ∈ P
    · by_cases hseg : semiChar ∈ lastSeg P
      · obtain ⟨hDecomp0, hInit0⟩ := lastSeg_decomp P
        obtain ⟨hrec, hnmem⟩ := splitFirst_reconstruct hseg
        rcases hsf : splitFirst semiChar (lastSeg P) with ⟨pre, segRest⟩
        rw [hsf] at hrec hnmem
        dsimp only at hrec hnmem
        have hsp : splitParams P =
            (P.take (P.length - (lastSeg P).length) ++ pre, segRest) := by
          rw [splitParams_eq P, if_pos hs, if_pos hsl, if_pos hseg, hsf]
        set S := lastSeg P with hS
        set init := P.take (P.length - S.length) with hinitdef
        obtain ⟨init', hinit'⟩ := hInit0 hsl
        rw [hsp]
        dsimp only
        by_cases hR : segRest = []
        · subst hR
          have hjoin : joinParams (init ++ pre) [] = init ++ pre := by
            simp [joinParams]
          rw [hjoin]
          constructor
          · right
            rw [hDecomp0, hrec]
            simp
          · have h47pre : slashChar ∉ pre := by
              intro hc
              have hmem' : slashChar ∈ S := by
                rw [hrec]
                exact List.mem_append.mpr (Or.inl hc)
              rw [hS] at hmem'
              exact lastSeg_no_slash P hmem'
            have hIPeq : init ++ pre = init' ++ slashChar :: pre := by
              rw [hinit']
              simp
            have hlast : lastSeg (init ++ pre) = pre := by
              rw [hIPeq]
              exact lastSeg_append_slash init' h47pre
            rw [splitParams_eq (init ++ pre)]
            by_cases hs2 : semiChar ∈ init ++ pre
            · have hsl2 : slashChar ∈ init ++ pre := by
                rw [hIPeq]
                exact List.mem_append.mpr (Or.inr (by simp))
              rw [if_pos hs2, if_pos hsl2, hlast, if_neg hnmem]
            · rw [if_neg hs2]
        · have hjoin : joinParams (init ++ pre) segRest =
              (init ++ pre) ++ semiChar :: segRest := by
            simp [joinParams, hR]
          have hPeq : P = (init ++ pre) ++ semiChar :: segRest := by
            rw [hDecomp0, hrec]
            simp
          constructor
          · left
            rw [hjoin]
            exact hPeq.symm
          · rw [hjoin, ← hPeq]
            exact hsp
      · have hsp : splitParams P = (P, []) := by
          rw [splitParams_eq P, if_pos hs, if_pos hsl, if_neg hseg]
        rw [hsp]
        dsimp only
        have hjoin : joinParams P [] = P := by simp [joinParams]
        rw [hjoin]
        exact ⟨Or.inl rfl, hsp⟩
    · obtain ⟨hrec, hnmem⟩ := splitFirst_reconstruct hs
      rcases hsf : splitFirst semiChar P with ⟨pre, rest⟩
      rw [hsf] at hrec hnmem
      dsimp only at hrec hnmem
      have hsp : splitParams P = (pre, rest) := by
        rw [splitParams_eq P, if_pos hs, if_neg hsl, hsf]
      rw [hsp]
      dsimp only
      by_cases hR : rest = []
      · subst hR
        have hjoin : joinParams pre [] = pre := by simp [joinParams]
        rw [hjoin]
        constructor
        · right
          rw [hrec]
        · rw [splitParams_eq pre, if_neg hnmem]
      · have hjoin : joinParams pre rest = pre ++ semiChar :: rest := by
          simp [joinParams, hR]
        rw [hjoin, ← hrec]
        exact ⟨Or.inl rfl, hsp⟩
  · have hsp : splitParams P = (P, []) := by
      rw [splitParams_eq P, if_neg hs]
    rw [hsp]
    dsimp only
    have hjoin : joinParams P [] = P := by simp [joinParams]
    rw [hjoin]
    exact ⟨Or.inl rfl, hsp⟩

theorem splitParams_join_prefix (P : List Nat) :
    List.IsPrefix (joinParams (splitParams P).1 (splitParams P).2) P := by
  rcases (splitParams_spec P).1 with h | h
  · rw [h]
  · conv_rhs => rw [h]
    exact List.prefix_append _ _

theorem joinParams_nil (p : List Nat) : joinParams p [] = p := rfl

theorem joinParams_no_semi {p0 pr0 : List Nat}
    (h : semiChar ∉ joinParams p0 pr0) : pr0 = [] := by
  unfold joinParams at h
  by_cases hE : pr0.isEmpty = true
  · simpa using hE
  · rw [if_neg hE] at h
    exact absurd (List.mem_append.mpr (Or.inr (List.mem_cons_self _ _))) h

theorem paramsSplit_join_prefix (sc P : List Nat) :
    List.IsPrefix (joinParams (paramsSplit sc P).1 (paramsSplit sc P).2)
      P := by
  unfold paramsSplit
  by_cases hg : sc ∈ usesParams ∧ semiChar ∈ P
  · rw [if_pos hg]
    exact splitParams_join_prefix P
  · rw [if_neg hg]
    show List.IsPrefix (joinParams P []) P
    rw [joinParams_nil]

/-- Re-splitting the re-joined path/params with the same scheme gives the
parts back: the params stage of a re-parse of `raw` is the identity. -/
theorem paramsSplit_idem {sc P p0 pr0 : List Nat}
    (h : paramsSplit sc P = (p0, pr0)) :
    paramsSplit sc (joinParams p0 pr0) = (p0, pr0) := by
  unfold paramsSplit at h ⊢
  by_cases hg : sc ∈ usesParams ∧ semiChar ∈ P
  · rw [if_pos hg] at h
    by_cases hg2 : sc ∈ usesParams ∧ semiChar ∈ joinParams p0 pr0
    · rw [if_pos hg2]
      have hspec := (splitParams_spec P).2
      rw [h] at hspec
      dsimp only at hspec
      exact hspec
    · rw [if_neg hg2]
      have hnsemi : semiChar ∉ joinParams p0 pr0 := fun hm => hg2 ⟨hg.1, hm⟩
      have hpr0 : pr0 = [] := joinParams_no_semi hnsemi
      subst hpr0
      rw [joinParams_nil]
  · rw [if_neg hg] at h
    injection h with h1 h2
    subst h1
    subst h2
    rw [joinParams_nil, if_neg hg]

/-- Lowercased scheme characters: what `url[:i].lower()` can contain. -/
def isLowerSchemeChar (c : Nat) : Bool :=
  (decide (97 ≤ c) && decide (c ≤ 122)) ||
    (decide (48 ≤ c) && decide (c ≤ 57)) ||
    decide (c = 43) || decide (c = 45) || decide (c = dotChar)

theorem isSchemeChar_of_lower {c : Nat} (h : isLowerSchemeChar c = true) :
    isSchemeChar c = true := by
  simp only [isLowerSchemeChar, isSchemeChar, isAsciiAlpha, dotChar,
    Bool.or_eq_true, Bool.and_eq_true, decide_eq_true_eq] at h ⊢
  omega

theorem ne_colon_of_lower {c : Nat} (h : isLowerSchemeChar c = true) :
    c ≠ colonChar := by
  simp only [isLowerSchemeChar, dotChar, Bool.or_eq_true, Bool.and_eq_true,
    decide_eq_true_eq] at h
  simp only [colonChar]
  omega

theorem pyLower_fix {l : List Nat} (h : ∀ c ∈ l, isLowerSchemeChar c = true) :
    pyLower l = l := by
  unfold pyLower
  induction l with
  | nil => rfl
  | cons c t ih =>
    rw [List.map_cons, ih (fun c hc => h c (by simp [hc]))]
    have hc := h c (by simp)
    simp only [isLowerSchemeChar, dotChar, Bool.or_eq_true, Bool.and_eq_true,
      decide_eq_true_eq] at hc
    have : ¬ (65 ≤ c ∧ c ≤ 90) := by omega
    rw [if_neg this]

theorem lowerSchemeChar_of_scheme {c : Nat} (h : isSchemeChar c = true) :
    isLowerSchemeChar (if 65 ≤ c ∧ c ≤ 90 then c + 32 else c) = true := by
  simp only [isSchemeChar, isAsciiAlpha, isLowerSchemeChar, dotChar,
    Bool.or_eq_true, Bool.and_eq_true, decide_eq_true_eq] at h ⊢
  by_cases hc : 65 ≤ c ∧ c ≤ 90
  · rw [if_pos hc]
    omega
  · rw [if_neg hc]
    omega

/-- No tab/CR/LF in a list: preserved by the sanitising filter. -/
def cleanL (l : List Nat) : Prop := ∀ c ∈ l, isUnsafeUrlByte c = false

theorem cleanL_append {a b : List Nat} (ha : cleanL a) (hb : cleanL b) :
    cleanL (a ++ b) := by
  intro c hc
  rcases List.mem_append.mp hc with h | h
  · exact ha c h
  · exact hb c h

theorem cleanL_cons {x : Nat} {l : List Nat} (hx : isUnsafeUrlByte x = false)
    (hl : cleanL l) : cleanL (x :: l) := by
  intro c hc
  rcases List.mem_cons.mp hc with rfl | h
  · exact hx
  · exact hl c h

theorem cleanL_nil : cleanL [] := fun c hc => absurd hc (List.not_mem_nil c)

theorem cleanL_sub {a b : List Nat} (hsub : ∀ c ∈ a, c ∈ b) (hb : cleanL b) :
    cleanL a := fun c hc => hb c (hsub c hc)

theorem removeUnsafeBytes_of_clean {l : List Nat} (h : cleanL l) :
    removeUnsafeBytes l = l := by
  unfold removeUnsafeBytes
  rw [List.filter_eq_self]
  intro c hc
  rw [h c hc]
  rfl

theorem lstripC0_of_head {l : List Nat}
    (h : l = [] ∨ ∃ c r, l = c :: r ∧ 32 < c) : lstripC0 l = l := by
  rcases h with rfl | ⟨c, r, rfl, hc⟩
  · rfl
  · unfold lstripC0
    rw [List.dropWhile_cons, if_neg (by simp only [decide_eq_true_eq]; omega)]

/-- The sanitised input of `urlsplit` is empty or starts with a character
above the C0-control/space range. -/
theorem stripped_head (s : List Nat) :
    removeUnsafeBytes (lstripC0 s) = []
    ∨ ∃ c r, removeUnsafeBytes (lstripC0 s) = c :: r ∧ 32 < c := by
  induction s with
  | nil => exact Or.inl rfl
  | cons a s ih =>
    by_cases ha : a ≤ 32
    · have h1 : lstripC0 (a :: s) = lstripC0 s := by
        unfold lstripC0
        rw [List.dropWhile_cons, if_pos (by simpa using ha)]
      rw [h1]
      exact ih
    · have h1 : lstripC0 (a :: s) = a :: s :=
        lstripC0_of_head (Or.inr ⟨a, s, rfl, by omega⟩)
      rw [h1]
      right
      refine ⟨a, removeUnsafeBytes s, ?_, by omega⟩
      have hsafe : (!(isUnsafeUrlByte a)) = true := by
        simp only [Bool.not_eq_true', isUnsafeUrlByte, tabChar, crChar,
          lfChar, Bool.or_eq_false_iff, decide_eq_false_iff_not]
        omega
      unfold removeUnsafeBytes
      rw [List.filter_cons, if_pos hsafe]

theorem splitScheme_of_wouldnot {l : List Nat}
    (h : wouldSplitScheme l = false) : splitScheme l = ([], l) := by
  simp [splitScheme, h]

theorem splitScheme_pos (sc R : List Nat)
    (hhead : ∃ c rest, sc = c :: rest ∧ 97 ≤ c ∧ c ≤ 122)
    (hall : ∀ c ∈ sc, isLowerSchemeChar c = true) :
    splitScheme (sc ++ colonChar :: R) = (sc, R) := by
  obtain ⟨c0, rest0, hsc, hc1, hc2⟩ := hhead
  have hA : (sc ++ colonChar :: R).takeWhile
      (fun c => decide (c ≠ colonChar)) = sc :=
    takeWhile_append_cons R
      (fun c hc => by
        simp only [decide_eq_true_eq]
        exact ne_colon_of_lower (hall c hc))
      (by simp)
  have hwould : wouldSplitScheme (sc ++ colonChar :: R) = true := by
    unfold wouldSplitScheme
    rw [hA]
    have hlen : sc.length ≠ (sc ++ colonChar :: R).length := by
      simp
    rw [if_neg hlen]
    have hne : sc.isEmpty = false := by rw [hsc]; rfl
    simp only [hne, Bool.false_eq_true, if_false, ite_false]
    have halpha : alphaHead sc = true := by
      rw [hsc]
      simp only [alphaHead, isAsciiAlpha, Bool.or_eq_true, Bool.and_eq_true,
        decide_eq_true_eq]
      omega
    rw [halpha]
    simp only [Bool.true_and]
    rw [List.all_eq_true]
    intro c hc
    exact isSchemeChar_of_lower (hall c hc)
  unfold splitScheme
  rw [hA, hwould]
  simp only [if_true, ite_true]
  rw [pyLower_fix hall, drop_len_succ_append]

theorem wouldSplit_head_nonalpha {l : List Nat} {c : Nat}
    (hh : l.head? = some c) (hc : isAsciiAlpha c = false) :
    wouldSplitScheme l = false := by
  rcases l with _ | ⟨x, rest⟩
  · cases hh
  · have hx : x = c := by simpa using hh
    subst hx
    simp only [wouldSplitScheme]
    by_cases hcol : x = colonChar
    · have hA : (x :: rest).takeWhile (fun c => decide (c ≠ colonChar)) = [] :=
        takeWhile_cons_false rest (by simp [hcol])
      rw [hA]
      have hlen : ([] : List Nat).length ≠ (x :: rest).length := by simp
      rw [if_neg hlen]
      rfl
    · have hA : (x :: rest).takeWhile (fun c => decide (c ≠ colonChar)) =
          x :: rest.takeWhile (fun c => decide (c ≠ colonChar)) := by
        rw [List.takeWhile_cons]
        simp [hcol]
      rw [hA]
      by_cases hlen : (x :: rest.takeWhile
          (fun c => decide (c ≠ colonChar))).length = (x :: rest).length
      · rw [if_pos hlen]
      · rw [if_neg hlen]
        simp [alphaHead, hc]

theorem splitScheme_head_nonalpha {l : List Nat} {c : Nat}
    (hh : l.head? = some c) (hc : isAsciiAlpha c = false) :
    splitScheme l = ([], l) :=
  splitScheme_of_wouldnot (wouldSplit_head_nonalpha hh hc)

theorem wouldSplit_append_qf (P T : List Nat)
    (hP : wouldSplitScheme P = false)
    (hT : T = [] ∨ T.head? = some qmarkChar ∨ T.head? = some hashChar) :
    wouldSplitScheme (P ++ T) = false := by
  simp only [wouldSplitScheme] at hP ⊢
  by_cases hlenP : (P.takeWhile (fun c => decide (c ≠ colonChar))).length =
      P.length
  · have hPall := all_of_takeWhile_eq_self (takeWhile_eq_self_of_length hlenP)
    have hA : (P ++ T).takeWhile (fun c => decide (c ≠ colonChar)) =
        P ++ T.takeWhile (fun c => decide (c ≠ colonChar)) :=
      takeWhile_append_all T hPall
    rw [hA]
    rcases hT with rfl | hT2
    · simp
    · by_cases hlenT : (T.takeWhile (fun c => decide (c ≠ colonChar))).length =
          T.length
      · have hTfull := takeWhile_eq_self_of_length hlenT
        rw [hTfull]
        simp
      · have hlen2 : (P ++ T.takeWhile
            (fun c => decide (c ≠ colonChar))).length ≠ (P ++ T).length := by
          simp only [List.length_append]
          omega
        rw [if_neg hlen2]
        obtain ⟨c0, rest0, hc0⟩ : ∃ c0 rest0, T = c0 :: rest0 ∧
            (c0 = qmarkChar ∨ c0 = hashChar) := by
          rcases T with _ | ⟨c0, rest0⟩
          · rcases hT2 with h | h <;> cases h
          · rcases hT2 with h | h
            · exact ⟨c0, rest0, rfl, Or.inl (by simpa using h)⟩
            · exact ⟨c0, rest0, rfl, Or.inr (by simpa using h)⟩
        obtain ⟨hTeq, hc0v⟩ := hc0
        have hc0ne : c0 ≠ colonChar := by
          rcases hc0v with rfl | rfl <;> simp [qmarkChar, hashChar, colonChar]
        have hTtw : T.takeWhile (fun c => decide (c ≠ colonChar)) =
            c0 :: rest0.takeWhile (fun c => decide (c ≠ colonChar)) := by
          rw [hTeq, List.takeWhile_cons]
          simp [hc0ne]
        have hmem : c0 ∈ P ++ T.takeWhile (fun c => decide (c ≠ colonChar)) := by
          rw [hTtw]
          exact List.mem_append.mpr (Or.inr (by simp))
        have hscheme : isSchemeChar c0 = false := by
          rcases hc0v with rfl | rfl <;> rfl
        have hall : (P ++ T.takeWhile
            (fun c => decide (c ≠ colonChar))).all isSchemeChar = false := by
          rw [List.all_eq_false]
          exact ⟨c0, hmem, by simp [hscheme]⟩
        rw [hall]
        simp only [Bool.and_false, ite_self]
  · obtain ⟨x, restP, hdecomp, hx⟩ := takeWhile_length_ne hlenP
    have hxcol : x = colonChar := by simpa using hx
    subst hxcol
    set A := P.takeWhile (fun c => decide (c ≠ colonChar)) with hAdef
    rw [if_neg hlenP] at hP
    have hAall : ∀ c ∈ A, (fun c => decide (c ≠ colonChar)) c = true := by
      intro c hc
      rw [hAdef] at hc
      have h2 := List.mem_takeWhile_imp hc
      exact h2
    have hA2 : (P ++ T).takeWhile (fun c => decide (c ≠ colonChar)) = A := by
      conv_lhs => rw [hdecomp]
      rw [List.append_assoc, List.cons_append]
      exact takeWhile_append_cons _ hAall (by simp)
    rw [hA2]
    have hlen2 : A.length ≠ (P ++ T).length := by
      have : P.length = A.length + 1 + restP.length := by
        conv_lhs => rw [hdecomp]
        simp
        omega
      simp only [List.length_append]
      omega
    rw [if_neg hlen2]
    exact hP

theorem wouldSplit_prefix {Q t : List Nat} (hpre : List.IsPrefix Q t)
    (ht : wouldSplitScheme t = false) : wouldSplitScheme Q = false := by
  obtain ⟨s, rfl⟩ := hpre
  simp only [wouldSplitScheme] at ht ⊢
  by_cases hlenQ : (Q.takeWhile (fun c => decide (c ≠ colonChar))).length =
      Q.length
  · rw [if_pos hlenQ]
  · obtain ⟨x, restQ, hdecomp, hx⟩ := takeWhile_length_ne hlenQ
    have hxcol : x = colonChar := by simpa using hx
    subst hxcol
    set A := Q.takeWhile (fun c => decide (c ≠ colonChar)) with hAdef
    have hAall : ∀ c ∈ A, (fun c => decide (c ≠ colonChar)) c = true := by
      intro c hc
      rw [hAdef] at hc
      have h2 := List.mem_takeWhile_imp hc
      exact h2
    have hA2 : (Q ++ s).takeWhile (fun c => decide (c ≠ colonChar)) = A := by
      conv_lhs => rw [hdecomp]
      rw [List.append_assoc, List.cons_append]
      exact takeWhile_append_cons _ hAall (by simp)
    rw [hA2] at ht
    have hQlen : Q.length = A.length + 1 + restQ.length := by
      conv_lhs => rw [hdecomp]
      simp
      omega
    have hlen2 : A.length ≠ (Q ++ s).length := by
      simp only [List.length_append]
      omega
    rw [if_neg hlen2] at ht
    rw [if_neg hlenQ]
    exact ht

theorem splitNetloc_append (a b : List Nat)
    (ha : ∀ c ∈ a, isNetlocEnd c = false)
    (hb : b = [] ∨ ∃ c rest, b = c :: rest ∧ isNetlocEnd c = true) :
    splitNetloc (a ++ b) = (a, b) := by
  unfold splitNetloc
  have hpre : (a ++ b).takeWhile (fun c => !(isNetlocEnd c)) = a := by
    rcases hb with rfl | ⟨c, rest, rfl, hc⟩
    · rw [List.append_nil, takeWhile_all (fun c hc => by rw [ha c hc]; rfl)]
    · exact takeWhile_append_cons rest
        (fun c' hc' => by rw [ha c' hc']; rfl) (by rw [hc]; rfl)
  rw [hpre]
  show (a, (a ++ b).drop a.length) = (a, b)
  rw [drop_len_append]

/-- Characterisation of the `ParsedUrl` values `parse_url` can produce; these
are exactly the facts the re-parse of `raw` needs. -/
structure Good (chkB chkN : List Nat → Bool) (u : ParsedUrl) : Prop where
  clean_scheme : cleanL u.scheme
  clean_domain : cleanL u.domain
  clean_path : cleanL u.path
  clean_params : cleanL u.params
  clean_query : cleanL u.query
  clean_fragment : cleanL u.fragment
  scheme_ok : u.scheme = [] ∨
    ((∃ c rest, u.scheme = c :: rest ∧ 97 ≤ c ∧ c ≤ 122)
      ∧ ∀ c ∈ u.scheme, isLowerSchemeChar c = true)
  domain_ok : ∀ c ∈ u.domain, isNetlocEnd c = false
  domain_brackets : (lbrackChar ∈ u.domain) ↔ (rbrackChar ∈ u.domain)
  pp_no_hash : hashChar ∉ joinParams u.path u.params
  pp_no_qmark : qmarkChar ∉ joinParams u.path u.params
  pp_split : paramsSplit u.scheme (joinParams u.path u.params) =
    (u.path, u.params)
  query_no_hash : hashChar ∉ u.query
  netloc_path : u.domain ≠ [] →
    (joinParams u.path u.params = [] ∨
      (joinParams u.path u.params).head? = some slashChar)
  no_scheme : u.scheme = [] →
    wouldSplitScheme (joinParams u.path u.params) = false
  pp_head : u.scheme = [] → u.domain = [] →
    (joinParams u.path u.params = []
      ∨ ∃ c r, joinParams u.path u.params = c :: r ∧ 32 < c)
  domain_chkB : lbrackChar ∈ u.domain ∧ rbrackChar ∈ u.domain →
    chkB (bracketedHost u.domain) = true
  domain_chkN : netlocAscii u.domain = false → chkN u.domain = true

theorem splitFragment_stage (P q f : List Nat) (hPnh : hashChar ∉ P)
    (hqnh : hashChar ∉ q) :
    splitFirst hashChar
      (P ++ ((if q.isEmpty then [] else qmarkChar :: q) ++
        (if f.isEmpty then [] else hashChar :: f))) =
      (P ++ (if q.isEmpty then [] else qmarkChar :: q), f) := by
  have hnh : hashChar ∉ P ++ (if q.isEmpty then [] else qmarkChar :: q) := by
    intro hmem
    rcases List.mem_append.mp hmem with h | h
    · exact hPnh h
    · by_cases hqE : q.isEmpty = true
      · rw [if_pos hqE] at h
        cases h
      · rw [if_neg hqE] at h
        rcases List.mem_cons.mp h with heq | h2
        · exact absurd heq (by decide)
        · exact hqnh h2
  by_cases hfE : f.isEmpty = true
  · have hf : f = [] := by simpa using hfE
    subst hf
    simp only [List.isEmpty_nil, if_true, ite_true, List.append_nil]
    exact splitFirst_no hnh
  · rw [if_neg hfE, ← List.append_assoc]
    exact splitFirst_append f hnh

theorem splitQuery_stage (P q : List Nat) (hPnq : qmarkChar ∉ P) :
    splitFirst qmarkChar
      (P ++ (if q.isEmpty then [] else qmarkChar :: q)) = (P, q) := by
  by_cases hqE : q.isEmpty = true
  · have hq : q = [] := by simpa using hqE
    subst hq
    simp only [List.isEmpty_nil, if_true, ite_true, List.append_nil]
    exact splitFirst_no hPnq
  · rw [if_neg hqE]
    exact splitFirst_append q hPnq

theorem qf_shape (q f : List Nat) :
    (if q.isEmpty then [] else qmarkChar :: q) ++
        (if f.isEmpty then [] else hashChar :: f) = []
    ∨ ((if q.isEmpty then [] else qmarkChar :: q) ++
        (if f.isEmpty then [] else hashChar :: f)).head? = some qmarkChar
    ∨ ((if q.isEmpty then [] else qmarkChar :: q) ++
        (if f.isEmpty then [] else hashChar :: f)).head? = some hashChar := by
  by_cases hqE : q.isEmpty = true
  · by_cases hfE : f.isEmpty = true
    · exact Or.inl (by rw [if_pos hqE, if_pos hfE]; rfl)
    · right; right
      rw [if_pos hqE, if_neg hfE]
      rfl
  · right; left
    rw [if_neg hqE]
    rfl

theorem take2_eq_means {l : List Nat}
    (h : l.take 2 = [slashChar, slashChar]) :
    ∃ t, l = slashChar :: slashChar :: t := by
  have hpre : List.IsPrefix [slashChar, slashChar] l := by
    rw [← h]
    exact List.take_prefix 2 l
  obtain ⟨t, ht⟩ := hpre
  exact ⟨t, by rw [← ht]; rfl⟩

/-- The `url1` computation of `urlunsplit`. -/
def unsplitBody (scheme netloc url : List Nat) : List Nat :=
  if !netloc.isEmpty
      || (!scheme.isEmpty && decide (scheme ∈ usesNetloc)
          && decide (url.take 2 ≠ [slashChar, slashChar])) then
    slashChar :: slashChar :: netloc ++
      (match url with
       | [] => []
       | c :: rest => if c = slashChar then c :: rest else slashChar :: c :: rest)
  else url

/-- The query/fragment suffix appended by `urlunsplit`. -/
def qfSuffix (query fragment : List Nat) : List Nat :=
  (if query.isEmpty then [] else qmarkChar :: query) ++
    (if fragment.isEmpty then [] else hashChar :: fragment)

theorem urlunsplit_decomp (scheme netloc url query fragment : List Nat) :
    urlunsplit scheme netloc url query fragment =
      (if scheme.isEmpty then unsplitBody scheme netloc url
       else scheme ++ colonChar :: unsplitBody scheme netloc url) ++
        qfSuffix query fragment := by
  unfold urlunsplit unsplitBody qfSuffix
  by_cases hscE : scheme.isEmpty = true
  · by_cases hqE : query.isEmpty = true
    · by_cases hfE : fragment.isEmpty = true
      · simp [hscE, hqE, hfE]
      · simp [hscE, hqE, hfE]
    · by_cases hfE : fragment.isEmpty = true
      · simp [hscE, hqE, hfE]
      · simp [hscE, hqE, hfE]
  · by_cases hqE : query.isEmpty = true
    · by_cases hfE : fragment.isEmpty = true
      · simp [hscE, hqE, hfE]
      · simp [hscE, hqE, hfE]
    · by_cases hfE : fragment.isEmpty = true
      · simp [hscE, hqE, hfE]
      · simp [hscE, hqE, hfE]

theorem unsplitBody_branch {sch nl P : List Nat}
    (hbr : (!nl.isEmpty || (!sch.isEmpty && decide (sch ∈ usesNetloc)
        && decide (P.take 2 ≠ [slashChar, slashChar]))) = true)
    (hshape : P = [] ∨ P.head? = some slashChar) :
    unsplitBody sch nl P = slashChar :: slashChar :: (nl ++ P) := by
  unfold unsplitBody
  rw [if_pos hbr]
  rcases hshape with rfl | hh
  · rfl
  · rcases P with _ | ⟨c, rest⟩
    · rfl
    · have hc : c = slashChar := by simpa using hh
      simp [hc]

theorem unsplitBody_nobranch {sch nl P : List Nat}
    (hbr : ¬ ((!nl.isEmpty || (!sch.isEmpty && decide (sch ∈ usesNetloc)
        && decide (P.take 2 ≠ [slashChar, slashChar]))) = true)) :
    unsplitBody sch nl P = P := by
  unfold unsplitBody
  rw [if_neg hbr]

theorem take2_ne_slashslash {P : List Nat} (qf : List Nat)
    (hP2 : P.take 2 ≠ [slashChar, slashChar])
    (hqf : qf = [] ∨ qf.head? = some qmarkChar ∨ qf.head? = some hashChar) :
    (P ++ qf).take 2 ≠ [slashChar, slashChar] := by
  have hqf' : ∀ c rest, qf = c :: rest → c ≠ slashChar := by
    intro c rest hc
    rcases hqf with rfl | h | h
    · cases hc
    · rw [hc] at h
      have : c = qmarkChar := by simpa using h
      subst this
      decide
    · rw [hc] at h
      have : c = hashChar := by simpa using h
      subst this
      decide
  intro hcontra
  obtain ⟨t, ht⟩ := take2_eq_means hcontra
  rcases P with _ | ⟨c1, P'⟩
  · rw [List.nil_append] at ht
    exact hqf' _ _ ht rfl
  · rcases P' with _ | ⟨c2, P''⟩
    · rw [List.cons_append, List.nil_append] at ht
      have h1 := List.cons.inj ht
      exact hqf' _ _ h1.2 rfl
    · rw [List.cons_append, List.cons_append] at ht
      have h1 := List.cons.inj ht
      have h2 := List.cons.inj h1.2
      apply hP2
      rw [h1.1, h2.1]
      rfl

theorem parse_url_compute (chkB chkN : List Nat → Bool)
    (RAW sc nl PQ P p pr q f REST R2 : List Nat)
    (h0 : removeUnsafeBytes (lstripC0 RAW) = RAW)
    (h1 : splitScheme RAW = (sc, REST))
    (h2 : (if REST.take 2 = [slashChar, slashChar] then
        splitNetloc (REST.drop 2) else ([], REST)) = (nl, R2))
    (h3 : ¬ ((lbrackChar ∈ nl ∧ rbrackChar ∉ nl)
        ∨ (rbrackChar ∈ nl ∧ lbrackChar ∉ nl)))
    (h3b : ¬ (lbrackChar ∈ nl ∧ rbrackChar ∈ nl
        ∧ chkB (bracketedHost nl) = false))
    (h3c : ¬ (netlocAscii nl = false ∧ chkN nl = false))
    (h4 : splitFirst hashChar R2 = (PQ, f))
    (h5 : splitFirst qmarkChar PQ = (P, q))
    (h6 : paramsSplit sc P = (p, pr)) :
    parse_url chkB chkN RAW = .ok ⟨sc, nl, p, pr, q, f⟩ := by
  simp only [parse_url]
  rw [h0, h1]
  dsimp only
  rw [h2]
  dsimp only
  rw [if_neg h3, if_neg h3b, h4]
  dsimp only
  rw [h5]
  dsimp only
  rw [if_neg h3c, h6]

/-- Every `Good` value that has a netloc — or has neither netloc nor
scheme and a path region not beginning with `//` — reparses to itself:
`parse_url u.raw = ok u`. -/
theorem good_reparse (chkB chkN : List Nat → Bool) (u : ParsedUrl)
    (hg : Good chkB chkN u)
    (hd : u.domain ≠ [] ∨ (u.scheme = []
      ∧ (joinParams u.path u.params).take 2 ≠ [slashChar, slashChar])) :
    parse_url chkB chkN u.raw = .ok u := by
  obtain ⟨sc, nl, p, pr, q, f⟩ := u
  have hcs : cleanL sc := hg.clean_scheme
  have hcd : cleanL nl := hg.clean_domain
  have hcp : cleanL p := hg.clean_path
  have hcpr : cleanL pr := hg.clean_params
  have hcq : cleanL q := hg.clean_query
  have hcf : cleanL f := hg.clean_fragment
  have hsch : sc = [] ∨
      ((∃ c rest, sc = c :: rest ∧ 97 ≤ c ∧ c ≤ 122)
        ∧ ∀ c ∈ sc, isLowerSchemeChar c = true) := hg.scheme_ok
  have hdok : ∀ c ∈ nl, isNetlocEnd c = false := hg.domain_ok
  have hdbr : (lbrackChar ∈ nl) ↔ (rbrackChar ∈ nl) := hg.domain_brackets
  have hpnh : hashChar ∉ joinParams p pr := hg.pp_no_hash
  have hpnq : qmarkChar ∉ joinParams p pr := hg.pp_no_qmark
  have hpsp : paramsSplit sc (joinParams p pr) = (p, pr) := hg.pp_split
  have hqnh : hashChar ∉ q := hg.query_no_hash
  have hnlp : nl ≠ [] → (joinParams p pr = [] ∨
      (joinParams p pr).head? = some slashChar) := hg.netloc_path
  have hnos : sc = [] → wouldSplitScheme (joinParams p pr) = false := hg.no_scheme
  have hphead : sc = [] → nl = [] → (joinParams p pr = []
      ∨ ∃ c r, joinParams p pr = c :: r ∧ 32 < c) := hg.pp_head
  have hckB : lbrackChar ∈ nl ∧ rbrackChar ∈ nl →
      chkB (bracketedHost nl) = true := hg.domain_chkB
  have hckN : netlocAscii nl = false → chkN nl = true := hg.domain_chkN
  set P := joinParams p pr with hPdef
  have hcP : cleanL P := by
    rw [hPdef]
    unfold joinParams
    by_cases hprE : pr.isEmpty = true
    · rw [if_pos hprE]
      exact hcp
    · rw [if_neg hprE]
      exact cleanL_append hcp (cleanL_cons (by decide) hcpr)
  have hqfs : qfSuffix q f = [] ∨ (qfSuffix q f).head? = some qmarkChar
      ∨ (qfSuffix q f).head? = some hashChar := by
    unfold qfSuffix
    exact qf_shape q f
  have hcqf : cleanL (qfSuffix q f) := by
    unfold qfSuffix
    apply cleanL_append
    · by_cases hqE : q.isEmpty = true
      · rw [if_pos hqE]
        exact cleanL_nil
      · rw [if_neg hqE]
        exact cleanL_cons (by decide) hcq
    · by_cases hfE : f.isEmpty = true
      · rw [if_pos hfE]
        exact cleanL_nil
      · rw [if_neg hfE]
        exact cleanL_cons (by decide) hcf
  have h4 : splitFirst hashChar (P ++ qfSuffix q f) =
      (P ++ (if q.isEmpty then [] else qmarkChar :: q), f) := by
    unfold qfSuffix
    exact splitFragment_stage P q f hpnh hqnh
  have h5 : splitFirst qmarkChar (P ++ (if q.isEmpty then [] else qmarkChar :: q)) =
      (P, q) := splitQuery_stage P q hpnq
  have h3 : ¬ ((lbrackChar ∈ nl ∧ rbrackChar ∉ nl)
      ∨ (rbrackChar ∈ nl ∧ lbrackChar ∉ nl)) := by
    rintro (⟨ha, hb⟩ | ⟨ha, hb⟩)
    · exact hb (hdbr.mp ha)
    · exact hb (hdbr.mpr ha)
  have h3b : ¬ (lbrackChar ∈ nl ∧ rbrackChar ∈ nl
      ∧ chkB (bracketedHost nl) = false) := by
    rintro ⟨hA, hB, hC⟩
    rw [hckB ⟨hA, hB⟩] at hC
    cases hC
  have h3c : ¬ (netlocAscii nl = false ∧ chkN nl = false) := by
    rintro ⟨hA, hB⟩
    rw [hckN hA] at hB
    cases hB
  have hraw : ParsedUrl.raw ⟨sc, nl, p, pr, q, f⟩ =
      (if sc.isEmpty then unsplitBody sc nl P
       else sc ++ colonChar :: unsplitBody sc nl P) ++ qfSuffix q f := by
    show urlunsplit sc nl (joinParams p pr) q f = _
    rw [← hPdef]
    exact urlunsplit_decomp sc nl P q f
  rw [hraw]
  by_cases hnlE : nl = []
  · -- no netloc: the hypothesis supplies an empty scheme and a path
    -- region not starting with '//', so urlunsplit leaves the body alone
    rcases hd with hd | ⟨hscNil, hP2⟩
    · exact absurd hnlE hd
    · subst hnlE
      subst hscNil
      have hbr : ¬ ((!(([] : List Nat)).isEmpty
          || (!(([] : List Nat)).isEmpty
              && decide (([] : List Nat) ∈ usesNetloc)
              && decide (P.take 2 ≠ [slashChar, slashChar]))) = true) := by
        simp
      have hbody := unsplitBody_nobranch hbr
      have h2 : (if (P ++ qfSuffix q f).take 2 = [slashChar, slashChar] then
            splitNetloc ((P ++ qfSuffix q f).drop 2)
          else ([], P ++ qfSuffix q f)) = ([], P ++ qfSuffix q f) := by
        rw [if_neg (take2_ne_slashslash (qfSuffix q f) hP2 hqfs)]
      have hrearr : (if ([] : List Nat).isEmpty then unsplitBody [] [] P
          else [] ++ colonChar :: unsplitBody [] [] P) ++ qfSuffix q f =
          P ++ qfSuffix q f := by
        rw [if_pos (show (([] : List Nat).isEmpty) = true from rfl), hbody]
      rw [hrearr]
      have hcRAW : cleanL (P ++ qfSuffix q f) := cleanL_append hcP hcqf
      have hhead : P ++ qfSuffix q f = []
          ∨ ∃ c r, P ++ qfSuffix q f = c :: r ∧ 32 < c := by
        rcases hphead rfl rfl with hPnil | ⟨c, r, hPc, hcgt⟩
        · rw [hPnil, List.nil_append]
          rcases hqfs with h | h | h
          · exact Or.inl h
          · rcases hqf0 : qfSuffix q f with _ | ⟨c, rest⟩
            · exact Or.inl rfl
            · rw [hqf0] at h
              have hcq0 : c = qmarkChar := by simpa using h
              exact Or.inr ⟨c, rest, rfl, by rw [hcq0]; decide⟩
          · rcases hqf0 : qfSuffix q f with _ | ⟨c, rest⟩
            · exact Or.inl rfl
            · rw [hqf0] at h
              have hch0 : c = hashChar := by simpa using h
              exact Or.inr ⟨c, rest, rfl, by rw [hch0]; decide⟩
        · rw [hPc]
          exact Or.inr ⟨c, r ++ qfSuffix q f, rfl, hcgt⟩
      exact parse_url_compute chkB chkN _ [] [] _ P p pr q f _ _
        (by rw [lstripC0_of_head hhead]
            exact removeUnsafeBytes_of_clean hcRAW)
        (splitScheme_of_wouldnot (wouldSplit_append_qf P (qfSuffix q f)
          (hnos rfl) hqfs))
        h2 h3 h3b h3c h4 h5 hpsp
  · -- netloc present: the '//'-branch of urlunsplit is taken
    have hbr : (!nl.isEmpty || (!sc.isEmpty && decide (sc ∈ usesNetloc)
        && decide (P.take 2 ≠ [slashChar, slashChar]))) = true := by
      have hbrb : (!nl.isEmpty) = true := by
        rcases nl with _ | ⟨c, rest⟩
        · exact absurd rfl hnlE
        · rfl
      rw [hbrb]
      rfl
    have hshape := hnlp hnlE
    have hbody := unsplitBody_branch hbr hshape
    have hR2shape : P ++ qfSuffix q f = [] ∨ ∃ c rest,
        P ++ qfSuffix q f = c :: rest ∧ isNetlocEnd c = true := by
      rcases hshape with hPnil | hh
      · rw [hPnil, List.nil_append]
        rcases hqfs with h | h | h
        · exact Or.inl h
        · rcases hqf0 : qfSuffix q f with _ | ⟨c, rest⟩
          · exact Or.inl rfl
          · rw [hqf0] at h
            have : c = qmarkChar := by simpa using h
            exact Or.inr ⟨c, rest, rfl, by rw [this]; rfl⟩
        · rcases hqf0 : qfSuffix q f with _ | ⟨c, rest⟩
          · exact Or.inl rfl
          · rw [hqf0] at h
            have : c = hashChar := by simpa using h
            exact Or.inr ⟨c, rest, rfl, by rw [this]; rfl⟩
      · rcases P with _ | ⟨c, Pt⟩
        · cases hh
        · have : c = slashChar := by simpa using hh
          exact Or.inr ⟨c, Pt ++ qfSuffix q f, rfl, by rw [this]; rfl⟩
    have h2 : (if (slashChar :: slashChar :: (nl ++ (P ++ qfSuffix q f))).take 2 =
        [slashChar, slashChar] then
          splitNetloc ((slashChar :: slashChar ::
            (nl ++ (P ++ qfSuffix q f))).drop 2)
        else ([], slashChar :: slashChar :: (nl ++ (P ++ qfSuffix q f)))) =
        (nl, P ++ qfSuffix q f) := by
      have hcond : List.take 2 (slashChar :: slashChar ::
          (nl ++ (P ++ qfSuffix q f))) = [slashChar, slashChar] := rfl
      rw [if_pos hcond]
      show splitNetloc (nl ++ (P ++ qfSuffix q f)) = _
      exact splitNetloc_append nl (P ++ qfSuffix q f) hdok hR2shape
    rcases hsch with hscNil | ⟨hhead, hall⟩
    · subst hscNil
      have hrearr : (if ([] : List Nat).isEmpty then unsplitBody [] nl P
          else [] ++ colonChar :: unsplitBody [] nl P) ++ qfSuffix q f =
          slashChar :: slashChar :: (nl ++ (P ++ qfSuffix q f)) := by
        rw [if_pos (show (([] : List Nat).isEmpty) = true from rfl), hbody]
        simp
      rw [hrearr]
      have hcRAW : cleanL (slashChar :: slashChar ::
          (nl ++ (P ++ qfSuffix q f))) :=
        cleanL_cons (by decide) (cleanL_cons (by decide)
          (cleanL_append hcd (cleanL_append hcP hcqf)))
      exact parse_url_compute chkB chkN _ [] nl _ P p pr q f _ _
        (by rw [lstripC0_of_head (Or.inr ⟨slashChar,
              slashChar :: (nl ++ (P ++ qfSuffix q f)), rfl, by decide⟩)]
            exact removeUnsafeBytes_of_clean hcRAW)
        (splitScheme_head_nonalpha rfl (by decide))
        h2 h3 h3b h3c h4 h5 hpsp
    · obtain ⟨c0, rest0, hsceq, hc1, hc2⟩ := hhead
      have hscE : sc.isEmpty = false := by
        rw [hsceq]
        rfl
      have hrearr : (if sc.isEmpty then unsplitBody sc nl P
          else sc ++ colonChar :: unsplitBody sc nl P) ++ qfSuffix q f =
          sc ++ colonChar ::
            (slashChar :: slashChar :: (nl ++ (P ++ qfSuffix q f))) := by
        rw [if_neg (by rw [hscE]; exact Bool.false_ne_true), hbody]
        simp
      rw [hrearr]
      have hcRAW : cleanL (sc ++ colonChar ::
          (slashChar :: slashChar :: (nl ++ (P ++ qfSuffix q f)))) :=
        cleanL_append hcs (cleanL_cons (by decide) (cleanL_cons (by decide)
          (cleanL_cons (by decide) (cleanL_append hcd (cleanL_append hcP hcqf)))))
      have hheadRAW : sc ++ colonChar ::
          (slashChar :: slashChar :: (nl ++ (P ++ qfSuffix q f))) =
          c0 :: (rest0 ++ colonChar ::
            (slashChar :: slashChar :: (nl ++ (P ++ qfSuffix q f)))) := by
        rw [hsceq]
        rfl
      exact parse_url_compute chkB chkN _ sc nl _ P p pr q f _ _
        (by rw [lstripC0_of_head (Or.inr ⟨c0, _, hheadRAW, by omega⟩)]
            exact removeUnsafeBytes_of_clean hcRAW)
        (splitScheme_pos sc _ ⟨c0, rest0, hsceq, hc1, hc2⟩ hall)
        h2 h3 h3b h3c h4 h5 hpsp

/-! Lemmas extracting the `Good` invariants from a successful parse. -/

theorem cleanL_pyLower {l : List Nat} (h : cleanL l) : cleanL (pyLower l) := by
  intro c hc
  unfold pyLower at hc
  obtain ⟨c0, hc0, hmap⟩ := List.mem_map.mp hc
  have h0 := h c0 hc0
  by_cases hup : 65 ≤ c0 ∧ c0 ≤ 90
  · rw [if_pos hup] at hmap
    subst hmap
    simp only [isUnsafeUrlByte, tabChar, crChar, lfChar, Bool.or_eq_false_iff,
      decide_eq_false_iff_not]
    omega
  · rw [if_neg hup] at hmap
    subst hmap
    exact h0

theorem mem_takeWhile_ne {sep c : Nat} {l : List Nat}
    (h : c ∈ l.takeWhile (fun c => decide (c ≠ sep))) : c ≠ sep := by
  have h2 := List.mem_takeWhile_imp h
  simpa using h2

theorem mem_takeWhile_mem {p : Nat → Bool} {c : Nat} {l : List Nat}
    (h : c ∈ l.takeWhile p) : c ∈ l :=
  (List.takeWhile_prefix p).subset h

theorem splitFirst_fst_sub {sep c : Nat} {l : List Nat}
    (h : c ∈ (splitFirst sep l).1) : c ∈ l := by
  unfold splitFirst at h
  exact mem_takeWhile_mem h

theorem splitFirst_snd_sub {sep c : Nat} {l : List Nat}
    (h : c ∈ (splitFirst sep l).2) : c ∈ l := by
  unfold splitFirst at h
  exact List.mem_of_mem_drop h

theorem splitFirst_fst_ne {sep c : Nat} {l : List Nat}
    (h : c ∈ (splitFirst sep l).1) : c ≠ sep := by
  unfold splitFirst at h
  exact mem_takeWhile_ne h

theorem splitNetloc_fst_mem {c : Nat} {l : List Nat}
    (h : c ∈ (splitNetloc l).1) : c ∈ l ∧ isNetlocEnd c = false := by
  unfold splitNetloc at h
  refine ⟨mem_takeWhile_mem h, ?_⟩
  have h2 := List.mem_takeWhile_imp h
  simpa using h2

theorem splitNetloc_snd_sub {c : Nat} {l : List Nat}
    (h : c ∈ (splitNetloc l).2) : c ∈ l := by
  unfold splitNetloc at h
  exact List.mem_of_mem_drop h

theorem drop_takeWhile_eq_dropWhile (p : Nat → Bool) (l : List Nat) :
    l.drop (l.takeWhile p).length = l.dropWhile p := by
  induction l with
  | nil => rfl
  | cons c t ih =>
    rw [List.takeWhile_cons, List.dropWhile_cons]
    by_cases hc : p c = true
    · simp only [hc, if_true, ite_true, List.length_cons, List.drop_succ_cons]
      exact ih
    · have hc' : p c = false := by simpa using hc
      simp [hc']

theorem splitNetloc_snd_head (l : List Nat) :
    (splitNetloc l).2 = [] ∨ ∃ c rest, (splitNetloc l).2 = c :: rest
      ∧ isNetlocEnd c = true := by
  unfold splitNetloc
  dsimp only
  rw [drop_takeWhile_eq_dropWhile]
  rcases hd : l.dropWhile (fun c => !(isNetlocEnd c)) with _ | ⟨c, rest⟩
  · exact Or.inl rfl
  · right
    refine ⟨c, rest, rfl, ?_⟩
    have := dropWhile_head_false hd
    simpa using this

theorem lastSeg_sub {c : Nat} {l : List Nat} (h : c ∈ lastSeg l) : c ∈ l := by
  unfold lastSeg at h
  rw [List.mem_reverse] at h
  have := mem_takeWhile_mem h
  rwa [List.mem_reverse] at this

theorem splitParams_fst_sub {c : Nat} {P : List Nat}
    (h : c ∈ (splitParams P).1) : c ∈ P := by
  rw [splitParams_eq P] at h
  by_cases hs : semiChar ∈ P
  · by_cases hsl : slashChar ∈ P
    · by_cases hseg : semiChar ∈ lastSeg P
      · rw [if_pos hs, if_pos hsl, if_pos hseg] at h
        dsimp only at h
        rcases List.mem_append.mp h with h1 | h1
        · exact List.mem_of_mem_take h1
        · exact lastSeg_sub (splitFirst_fst_sub h1)
      · rw [if_pos hs, if_pos hsl, if_neg hseg] at h
        exact h
    · rw [if_pos hs, if_neg hsl] at h
      exact splitFirst_fst_sub h
  · rw [if_neg hs] at h
    exact h

theorem splitParams_snd_sub {c : Nat} {P : List Nat}
    (h : c ∈ (splitParams P).2) : c ∈ P := by
  rw [splitParams_eq P] at h
  by_cases hs : semiChar ∈ P
  · by_cases hsl : slashChar ∈ P
    · by_cases hseg : semiChar ∈ lastSeg P
      · rw [if_pos hs, if_pos hsl, if_pos hseg] at h
        dsimp only at h
        exact lastSeg_sub (splitFirst_snd_sub h)
      · rw [if_pos hs, if_pos hsl, if_neg hseg] at h
        cases h
    · rw [if_pos hs, if_neg hsl] at h
      exact splitFirst_snd_sub h
  · rw [if_neg hs] at h
    cases h

theorem paramsSplit_fst_sub {sc P : List Nat} {c : Nat}
    (h : c ∈ (paramsSplit sc P).1) : c ∈ P := by
  unfold paramsSplit at h
  by_cases hg : sc ∈ usesParams ∧ semiChar ∈ P
  · rw [if_pos hg] at h
    exact splitParams_fst_sub h
  · rw [if_neg hg] at h
    exact h

theorem paramsSplit_snd_sub {sc P : List Nat} {c : Nat}
    (h : c ∈ (paramsSplit sc P).2) : c ∈ P := by
  unfold paramsSplit at h
  by_cases hg : sc ∈ usesParams ∧ semiChar ∈ P
  · rw [if_pos hg] at h
    exact splitParams_snd_sub h
  · rw [if_neg hg] at h
    simp at h

theorem prefix_head {P pq : List Nat} (h : List.IsPrefix P pq) :
    P = [] ∨ P.head? = pq.head? := by
  obtain ⟨s, rfl⟩ := h
  rcases P with _ | ⟨c, t⟩
  · exact Or.inl rfl
  · exact Or.inr rfl

theorem wouldSplit_true_elim {t : List Nat} (h : wouldSplitScheme t = true) :
    (t.takeWhile (fun c => decide (c ≠ colonChar))).length ≠ t.length
    ∧ t.takeWhile (fun c => decide (c ≠ colonChar)) ≠ []
    ∧ alphaHead (t.takeWhile (fun c => decide (c ≠ colonChar))) = true
    ∧ (t.takeWhile (fun c => decide (c ≠ colonChar))).all isSchemeChar
        = true := by
  simp only [wouldSplitScheme] at h
  by_cases hlen : (t.takeWhile (fun c => decide (c ≠ colonChar))).length =
      t.length
  · rw [if_pos hlen] at h
    cases h
  · rw [if_neg hlen] at h
    by_cases hemp : (t.takeWhile (fun c => decide (c ≠ colonChar))).isEmpty =
        true
    · rw [if_pos hemp] at h
      cases h
    · rw [if_neg hemp] at h
      have hne : t.takeWhile (fun c => decide (c ≠ colonChar)) ≠ [] := by
        intro hc
        apply hemp
        rw [hc]
        rfl
      exact ⟨hlen, hne, (Bool.and_eq_true _ _ |>.mp h).1,
        (Bool.and_eq_true _ _ |>.mp h).2⟩

theorem splitScheme_cases (t : List Nat) :
    (wouldSplitScheme t = false ∧ splitScheme t = ([], t))
    ∨ (wouldSplitScheme t = true ∧ splitScheme t =
        (pyLower (t.takeWhile (fun c => decide (c ≠ colonChar))),
         t.drop ((t.takeWhile (fun c => decide (c ≠ colonChar))).length + 1))) := by
  by_cases h : wouldSplitScheme t = true
  · right
    refine ⟨h, ?_⟩
    unfold splitScheme
    rw [if_pos h]
  · left
    have hf : wouldSplitScheme t = false := by simpa using h
    exact ⟨hf, splitScheme_of_wouldnot hf⟩

theorem lower_alpha_head {c : Nat} (h : isAsciiAlpha c = true) :
    97 ≤ (if 65 ≤ c ∧ c ≤ 90 then c + 32 else c)
    ∧ (if 65 ≤ c ∧ c ≤ 90 then c + 32 else c) ≤ 122 := by
  simp only [isAsciiAlpha, Bool.or_eq_true, Bool.and_eq_true,
    decide_eq_true_eq] at h
  by_cases hc : 65 ≤ c ∧ c ≤ 90
  · rw [if_pos hc]
    omega
  · rw [if_neg hc]
    omega

/-- Every `ParsedUrl` a successful `parse_url` produces satisfies the `Good`
invariants. -/
theorem parse_good {chkB chkN : List Nat → Bool} {s : List Nat}
    {u : ParsedUrl} (h : parse_url chkB chkN s = .ok u) :
    Good chkB chkN u := by
  set t := removeUnsafeBytes (lstripC0 s) with ht
  have hct : cleanL t := by
    rw [ht]
    intro c hc
    unfold removeUnsafeBytes at hc
    have h2 := (List.mem_filter.mp hc).2
    simpa using h2
  simp only [parse_url] at h
  rw [← ht] at h
  rcases hss0 : splitScheme t with ⟨sc, r1⟩
  rw [hss0] at h
  try dsimp only at h
  have hscfacts : (sc = [] ∧ r1 = t ∧ wouldSplitScheme t = false)
      ∨ (wouldSplitScheme t = true
          ∧ sc = pyLower (t.takeWhile (fun c => decide (c ≠ colonChar)))
          ∧ r1 = t.drop
              ((t.takeWhile (fun c => decide (c ≠ colonChar))).length + 1)) := by
    rcases splitScheme_cases t with ⟨hws, hx⟩ | ⟨hws, hx⟩
    · rw [hss0] at hx
      obtain ⟨h1, h2⟩ := Prod.mk.injEq _ _ _ _ ▸ hx
      exact Or.inl ⟨h1, h2, hws⟩
    · rw [hss0] at hx
      obtain ⟨h1, h2⟩ := Prod.mk.injEq _ _ _ _ ▸ hx
      exact Or.inr ⟨hws, h1, h2⟩
  have hr1t : ∀ c ∈ r1, c ∈ t := by
    rcases hscfacts with ⟨_, hr1, _⟩ | ⟨_, _, hr1⟩
    · rw [hr1]
      exact fun c hc => hc
    · rw [hr1]
      exact fun c hc => List.mem_of_mem_drop hc
  rcases hp2 : (if r1.take 2 = [slashChar, slashChar] then
      splitNetloc (r1.drop 2) else ([], r1)) with ⟨nl, r2⟩
  rw [hp2] at h
  try dsimp only at h
  have hnlfacts : (∀ c ∈ nl, isNetlocEnd c = false ∧ c ∈ r1)
      ∧ (∀ c ∈ r2, c ∈ r1)
      ∧ (r2 = r1 ∨ (r2 = [] ∨ ∃ c rest, r2 = c :: rest
          ∧ isNetlocEnd c = true))
      ∧ (nl ≠ [] → (r2 = [] ∨ ∃ c rest, r2 = c :: rest
          ∧ isNetlocEnd c = true)) := by
    by_cases hcond : r1.take 2 = [slashChar, slashChar]
    · rw [if_pos hcond] at hp2
      refine ⟨?_, ?_, ?_, ?_⟩
      · intro c hc
        have hc' : c ∈ (splitNetloc (r1.drop 2)).1 := by rw [hp2]; exact hc
        obtain ⟨hm, hend⟩ := splitNetloc_fst_mem hc'
        exact ⟨hend, List.mem_of_mem_drop hm⟩
      · intro c hc
        have hc' : c ∈ (splitNetloc (r1.drop 2)).2 := by rw [hp2]; exact hc
        exact List.mem_of_mem_drop (splitNetloc_snd_sub hc')
      · right
        have := splitNetloc_snd_head (r1.drop 2)
        rwa [hp2] at this
      · intro _
        have := splitNetloc_snd_head (r1.drop 2)
        rwa [hp2] at this
    · rw [if_neg hcond] at hp2
      obtain ⟨h1, h2⟩ := Prod.mk.injEq _ _ _ _ ▸ hp2
      refine ⟨?_, ?_, Or.inl h2.symm, ?_⟩
      · intro c hc
        rw [← h1] at hc
        cases hc
      · intro c hc
        rw [← h2] at hc
        exact hc
      · intro hne
        exact absurd h1.symm hne
  by_cases hbrC : ((lbrackChar ∈ nl ∧ rbrackChar ∉ nl)
      ∨ (rbrackChar ∈ nl ∧ lbrackChar ∉ nl))
  · rw [if_pos hbrC] at h
    cases h
  · rw [if_neg hbrC] at h
    try dsimp only at h
    have hbrB : ¬ (lbrackChar ∈ nl ∧ rbrackChar ∈ nl
        ∧ chkB (bracketedHost nl) = false) := by
      intro hc
      rw [if_pos hc] at h
      cases h
    rw [if_neg hbrB] at h
    try dsimp only at h
    rcases hfr : splitFirst hashChar r2 with ⟨r3, f0⟩
    rw [hfr] at h
    try dsimp only at h
    rcases hqs : splitFirst qmarkChar r3 with ⟨pq, q0⟩
    rw [hqs] at h
    try dsimp only at h
    have hnck : ¬ (netlocAscii nl = false ∧ chkN nl = false) := by
      intro hc
      rw [if_pos hc] at h
      cases h
    rw [if_neg hnck] at h
    try dsimp only at h
    rcases hps : paramsSplit sc pq with ⟨p0, pr0⟩
    rw [hps] at h
    try dsimp only at h
    injection h with h2
    subst h2
    -- membership chains
    have hr3r2 : ∀ c ∈ r3, c ∈ r2 := by
      intro c hc
      have hc' : c ∈ (splitFirst hashChar r2).1 := by rw [hfr]; exact hc
      exact splitFirst_fst_sub hc'
    have hr3nh : ∀ c ∈ r3, c ≠ hashChar := by
      intro c hc
      have hc' : c ∈ (splitFirst hashChar r2).1 := by rw [hfr]; exact hc
      exact splitFirst_fst_ne hc'
    have hf0r2 : ∀ c ∈ f0, c ∈ r2 := by
      intro c hc
      have hc' : c ∈ (splitFirst hashChar r2).2 := by rw [hfr]; exact hc
      exact splitFirst_snd_sub hc'
    have hpqr3 : ∀ c ∈ pq, c ∈ r3 := by
      intro c hc
      have hc' : c ∈ (splitFirst qmarkChar r3).1 := by rw [hqs]; exact hc
      exact splitFirst_fst_sub hc'
    have hpqnq : ∀ c ∈ pq, c ≠ qmarkChar := by
      intro c hc
      have hc' : c ∈ (splitFirst qmarkChar r3).1 := by rw [hqs]; exact hc
      exact splitFirst_fst_ne hc'
    have hq0r3 : ∀ c ∈ q0, c ∈ r3 := by
      intro c hc
      have hc' : c ∈ (splitFirst qmarkChar r3).2 := by rw [hqs]; exact hc
      exact splitFirst_snd_sub hc'
    have hp0pq : ∀ c ∈ p0, c ∈ pq := by
      intro c hc
      have hc' : c ∈ (paramsSplit sc pq).1 := by rw [hps]; exact hc
      exact paramsSplit_fst_sub hc'
    have hpr0pq : ∀ c ∈ pr0, c ∈ pq := by
      intro c hc
      have hc' : c ∈ (paramsSplit sc pq).2 := by rw [hps]; exact hc
      exact paramsSplit_snd_sub hc'
    have hPpre : List.IsPrefix (joinParams p0 pr0) pq := by
      have := paramsSplit_join_prefix sc pq
      rwa [hps] at this
    have hPpq : ∀ c ∈ joinParams p0 pr0, c ∈ pq := fun c hc => hPpre.subset hc
    have hpqr2pre : List.IsPrefix pq r3 := by
      have h1 : pq = (splitFirst qmarkChar r3).1 := by rw [hqs]
      rw [h1]
      exact List.takeWhile_prefix _
    have hr3r2pre : List.IsPrefix r3 r2 := by
      have h1 : r3 = (splitFirst hashChar r2).1 := by rw [hfr]
      rw [h1]
      exact List.takeWhile_prefix _
    have hPr2pre : List.IsPrefix (joinParams p0 pr0) r2 :=
      (hPpre.trans hpqr2pre).trans hr3r2pre
    have hcleanr2 : cleanL r2 :=
      cleanL_sub (fun c hc => hr1t c (hnlfacts.2.1 c hc)) hct
    -- the head of the path region cannot be a separator
    have hPheadFacts : joinParams p0 pr0 = []
        ∨ (joinParams p0 pr0).head? = r2.head? := prefix_head hPr2pre
    have hnotsep : ∀ c rest, joinParams p0 pr0 = c :: rest →
        c ≠ qmarkChar ∧ c ≠ hashChar := by
      intro c rest hc
      have hmem : c ∈ joinParams p0 pr0 := by rw [hc]; exact List.mem_cons_self c rest
      exact ⟨hpqnq c (hPpq c hmem), hr3nh c (hpqr3 c (hPpq c hmem))⟩
    constructor
    -- clean_scheme
    · rcases hscfacts with ⟨hsc, _, _⟩ | ⟨_, hsc, _⟩
      · rw [hsc]
        exact cleanL_nil
      · rw [hsc]
        exact cleanL_pyLower (cleanL_sub (fun c hc => mem_takeWhile_mem hc) hct)
    -- clean_domain
    · exact cleanL_sub (fun c hc => hr1t c (hnlfacts.1 c hc).2) hct
    -- clean_path
    · exact cleanL_sub (fun c hc => hpqr3 c (hp0pq c hc))
        (cleanL_sub hr3r2 hcleanr2)
    -- clean_params
    · exact cleanL_sub (fun c hc => hpqr3 c (hpr0pq c hc))
        (cleanL_sub hr3r2 hcleanr2)
    -- clean_query
    · exact cleanL_sub hq0r3 (cleanL_sub hr3r2 hcleanr2)
    -- clean_fragment
    · exact cleanL_sub hf0r2 hcleanr2
    -- scheme_ok
    · rcases hscfacts with ⟨hsc, _, _⟩ | ⟨hws, hsc, _⟩
      · exact Or.inl hsc
      · right
        obtain ⟨_, hne, halpha, hall⟩ := wouldSplit_true_elim hws
        constructor
        · rcases hA : t.takeWhile (fun c => decide (c ≠ colonChar))
            with _ | ⟨c0, rest0⟩
          · exact absurd hA hne
          · rw [hA] at hsc halpha
            refine ⟨(if 65 ≤ c0 ∧ c0 ≤ 90 then c0 + 32 else c0),
              pyLower rest0, ?_, ?_⟩
            · rw [hsc]
              rfl
            · exact lower_alpha_head (by simpa [alphaHead] using halpha)
        · intro c hc
          rw [hsc] at hc
          obtain ⟨c0, hc0, hmap⟩ := List.mem_map.mp hc
          rw [List.all_eq_true] at hall
          have := hall c0 hc0
          rw [← hmap]
          exact lowerSchemeChar_of_scheme this
    -- domain_ok
    · exact fun c hc => (hnlfacts.1 c hc).1
    -- domain_brackets
    · constructor
      · intro hl
        by_cases hr : rbrackChar ∈ nl
        · exact hr
        · exact absurd (Or.inl ⟨hl, hr⟩) hbrC
      · intro hr
        by_cases hl : lbrackChar ∈ nl
        · exact hl
        · exact absurd (Or.inr ⟨hr, hl⟩) hbrC
    -- pp_no_hash
    · intro hc
      exact hr3nh hashChar (hpqr3 hashChar (hPpq hashChar hc)) rfl
    -- pp_no_qmark
    · intro hc
      exact hpqnq qmarkChar (hPpq qmarkChar hc) rfl
    -- pp_split
    · exact paramsSplit_idem hps
    -- query_no_hash
    · intro hc
      exact hr3nh hashChar (hq0r3 hashChar hc) rfl
    -- netloc_path
    · intro hnl
      show joinParams p0 pr0 = [] ∨ (joinParams p0 pr0).head? = some slashChar
      rcases hnlfacts.2.2.2 hnl with hr2nil | ⟨c, rest, hr2eq, hcend⟩
      · rcases hPheadFacts with hP | hP
        · exact Or.inl hP
        · rcases hP0 : joinParams p0 pr0 with _ | ⟨c0, rest0⟩
          · exact Or.inl rfl
          · rw [hP0, hr2nil] at hP
            cases hP
      · rcases hPheadFacts with hP | hP
        · exact Or.inl hP
        · rcases hP0 : joinParams p0 pr0 with _ | ⟨c0, rest0⟩
          · exact Or.inl rfl
          · right
            rw [hP0] at hP
            rw [hr2eq] at hP
            have hc0 : c0 = c := by simpa using hP
            subst hc0
            have hsep := hnotsep c0 rest0 hP0
            have hcv : c0 = slashChar ∨ c0 = qmarkChar ∨ c0 = hashChar := by
              have h9 := hcend
              simp only [isNetlocEnd, Bool.or_eq_true, decide_eq_true_eq] at h9
              rcases h9 with (h9 | h9) | h9
              exacts [Or.inl h9, Or.inr (Or.inl h9), Or.inr (Or.inr h9)]
            rcases hcv with rfl | rfl | rfl
            · rfl
            · exact absurd rfl hsep.1
            · exact absurd rfl hsep.2
    -- no_scheme
    · intro hscnil
      show wouldSplitScheme (joinParams p0 pr0) = false
      have hsc0 : sc = [] := hscnil
      have hwt : wouldSplitScheme t = false ∧ r1 = t := by
        rcases hscfacts with ⟨_, hr1, hws⟩ | ⟨hws, hsc, _⟩
        · exact ⟨hws, hr1⟩
        · exfalso
          obtain ⟨_, hne, _, _⟩ := wouldSplit_true_elim hws
          rw [hsc0] at hsc
          rcases hA : t.takeWhile (fun c => decide (c ≠ colonChar))
            with _ | ⟨c0, rest0⟩
          · exact hne hA
          · rw [hA] at hsc
            simp [pyLower] at hsc
      rcases hnlfacts.2.2.1 with hr2r1 | hhead
      · have hPt : List.IsPrefix (joinParams p0 pr0) t := by
          rw [hr2r1, hwt.2] at hPr2pre
          exact hPr2pre
        exact wouldSplit_prefix hPt hwt.1
      · rcases hhead with hr2nil | ⟨c, rest, hr2eq, hcend⟩
        · rcases hPheadFacts with hP | hP
          · rw [hP]
            rfl
          · rcases hP0 : joinParams p0 pr0 with _ | ⟨c0, rest0⟩
            · rfl
            · rw [hP0, hr2nil] at hP
              cases hP
        · rcases hPheadFacts with hP | hP
          · rw [hP]
            rfl
          · rcases hP0 : joinParams p0 pr0 with _ | ⟨c0, rest0⟩
            · rfl
            · rw [hP0, hr2eq] at hP
              have hc0 : c0 = c := by simpa using hP
              subst hc0
              have hsep := hnotsep c0 rest0 hP0
              have hcv : c0 = slashChar ∨ c0 = qmarkChar ∨ c0 = hashChar := by
                have h9 := hcend
                simp only [isNetlocEnd, Bool.or_eq_true,
                  decide_eq_true_eq] at h9
                rcases h9 with (h9 | h9) | h9
                exacts [Or.inl h9, Or.inr (Or.inl h9), Or.inr (Or.inr h9)]
              rcases hcv with rfl | rfl | rfl
              · exact wouldSplit_head_nonalpha rfl (by decide)
              · exact absurd rfl hsep.1
              · exact absurd rfl hsep.2
    -- pp_head
    · intro hscnil hnlnil
      show joinParams p0 pr0 = []
        ∨ ∃ c r, joinParams p0 pr0 = c :: r ∧ 32 < c
      have hsc0 : sc = [] := hscnil
      have hnl0 : nl = [] := hnlnil
      rcases hP0 : joinParams p0 pr0 with _ | ⟨c0, rest0⟩
      · exact Or.inl rfl
      · right
        refine ⟨c0, rest0, rfl, ?_⟩
        rcases hPheadFacts with hPn | hPh
        · rw [hP0] at hPn
          cases hPn
        · rw [hP0] at hPh
          rcases hnlfacts.2.2.1 with hr2r1 | hhead
          · have hr1teq : r1 = t := by
              rcases hscfacts with ⟨_, hx, _⟩ | ⟨hws, hsc, _⟩
              · exact hx
              · exfalso
                obtain ⟨_, hne, _, _⟩ := wouldSplit_true_elim hws
                rw [hsc0] at hsc
                rcases hA : t.takeWhile (fun c => decide (c ≠ colonChar))
                  with _ | ⟨cA, restA⟩
                · exact hne hA
                · rw [hA] at hsc
                  simp [pyLower] at hsc
            rw [hr2r1, hr1teq] at hPh
            rcases stripped_head s with hts | ⟨ct, rt, hts, hgt⟩
            · rw [← ht] at hts
              rw [hts] at hPh
              cases hPh
            · rw [← ht] at hts
              rw [hts] at hPh
              have hc0 : c0 = ct := by simpa using hPh
              subst hc0
              exact hgt
          · rcases hhead with hr2nil | ⟨c, rest, hr2eq, hcend⟩
            · rw [hr2nil] at hPh
              cases hPh
            · rw [hr2eq] at hPh
              have hc0 : c0 = c := by simpa using hPh
              subst hc0
              have hcv : c0 = slashChar ∨ c0 = qmarkChar ∨ c0 = hashChar := by
                have h9 := hcend
                simp only [isNetlocEnd, Bool.or_eq_true,
                  decide_eq_true_eq] at h9
                rcases h9 with (h9 | h9) | h9
                exacts [Or.inl h9, Or.inr (Or.inl h9), Or.inr (Or.inr h9)]
              rcases hcv with rfl | rfl | rfl
              · decide
              · decide
              · decide
    -- domain_chkB
    · intro hab
      show chkB (bracketedHost nl) = true
      rcases Bool.eq_false_or_eq_true (chkB (bracketedHost nl)) with hcb | hcb
      · exact hcb
      · exact absurd ⟨hab.1, hab.2, hcb⟩ hbrB
    -- domain_chkN
    · intro hna
      show chkN nl = true
      rcases Bool.eq_false_or_eq_true (chkN nl) with hcn | hcn
      · exact hcn
      · exact absurd ⟨hna, hcn⟩ hnck

/-- Claim C7, counterexample: `parse_url` on `http:g` yields scheme `http`,
no netloc and path `g`; `urlunparse` of CPython 3.11.6 reassembles it as
`http:///g` (the `uses_netloc` branch inserts `//` and a leading slash), so
the re-parse has path `/g` and differs from the first parse field by field.
Likewise `////x` parses to the netloc-less path `//x`, whose reassembly
`//x` re-parses with netloc `x` — the round trip fails without a netloc. -/
theorem parse_url_roundtrip_counterexample :
    parse_url (fun _ => true) (fun _ => true) (pyStr "http:g")
      = .ok ⟨pyStr "http", [], pyStr "g", [], [], []⟩
    ∧ ParsedUrl.raw ⟨pyStr "http", [], pyStr "g", [], [], []⟩
        = pyStr "http:///g"
    ∧ parse_url (fun _ => true) (fun _ => true) (pyStr "http:///g")
      = .ok ⟨pyStr "http", [], pyStr "/g", [], [], []⟩
    ∧ (⟨pyStr "http", [], pyStr "/g", [], [], []⟩ : ParsedUrl)
        ≠ ⟨pyStr "http", [], pyStr "g", [], [], []⟩
    ∧ parse_url (fun _ => true) (fun _ => true) (pyStr "////x")
      = .ok ⟨[], [], pyStr "//x", [], [], []⟩
    ∧ ParsedUrl.raw ⟨[], [], pyStr "//x", [], [], []⟩ = pyStr "//x"
    ∧ parse_url (fun _ => true) (fun _ => true) (pyStr "//x")
      = .ok ⟨[], pyStr "x", [], [], [], []⟩ :=
  ⟨rfl, by decide, rfl, by decide, rfl, by decide, rfl⟩

/-- Claim C7 (corrected): for every URL string that `parse_url` accepts,
re-parsing the parsed value's reassembled `raw` string yields an equal Url
field by field — and the `raw` of that re-parse equals `raw` itself —
whenever the parsed value has a netloc (every `scheme://host...` URL), or
has neither scheme nor netloc and a path region not beginning with `//`
(every ordinary relative URL).  Without that restriction the claim is false
of the program: `urlunsplit` of CPython 3.11.6 inserts `//` for
netloc-less URLs of `uses_netloc` schemes (`http:g` reassembles to
`http:///g`, which re-parses with path `/g`) and drops the distinction for
schemeless paths starting with `//` (`////x` reassembles to `//x`, which
re-parses with netloc `x`).  The bracketed-host and netloc validators the
standard library delegates to `ipaddress`/`unicodedata` are abstracted as
the function parameters `chkB`/`chkN`, and the result holds for all of
them. -/
theorem parse_url_roundtrip (chkB chkN : List Nat → Bool) (s : List Nat)
    (u : ParsedUrl) (h : parse_url chkB chkN s = .ok u)
    (hd : u.domain ≠ [] ∨ (u.scheme = []
      ∧ (joinParams u.path u.params).take 2 ≠ [slashChar, slashChar])) :
    parse_url chkB chkN u.raw = .ok u
    ∧ (parse_url chkB chkN u.raw).map ParsedUrl.raw = .ok u.raw := by
  have hr := good_reparse chkB chkN u (parse_good h) hd
  refine ⟨hr, ?_⟩
  rw [hr]
  rfl

theorem parse_url_roundtrip_witness :
    parse_url (fun _ => true) (fun _ => true)
      (ParsedUrl.raw ⟨pyStr "http", pyStr "example.com", pyStr "/a/b",
        pyStr "p", pyStr "q=1", pyStr "frag"⟩)
      = .ok ⟨pyStr "http", pyStr "example.com", pyStr "/a/b",
        pyStr "p", pyStr "q=1", pyStr "frag"⟩ :=
  (parse_url_roundtrip (fun _ => true) (fun _ => true)
    (pyStr "http://example.com/a/b;p?q=1#frag")
    ⟨pyStr "http", pyStr "example.com", pyStr "/a/b", pyStr "p",
      pyStr "q=1", pyStr "frag"⟩ rfl (Or.inl (by decide))).1

end Naja
